import Mathlib

/-!
# Verification of the RandomPromptsMyTest prompt expander

Shallow embedding of `src/nodes.py` (class `RandomPromptsMyTest`).  Strings
are modelled as `List Char`; Python floats arising from the weight regex are
modelled as exact rationals (the regex only accepts decimal literals, so the
value is determined by the digit strings); the pseudo-random generator is
modelled as a pair of ambient streams (one of naturals for `random.choice`,
one of rationals for the `random.random()` draw inside `random.choices`)
together with explicit cursor positions threaded through the functions.
Recursions that are not structural in Python (the wildcard rescan loop, the
recursive choice resolution) take an explicit fuel argument; running out of
fuel models non-termination (`Option.none` / `PyErr.fuelOut`).
-/

set_option autoImplicit false

namespace RandomPromptsMyTest

/-- The ASCII whitespace characters matched by Python's `\s` and stripped by
`str.strip()`.  (Python also matches non-ASCII Unicode whitespace; none of the
claims involves such characters, so the model restricts to ASCII.) -/
def pyIsSpace (c : Char) : Bool :=
  c = ' ' || c = '\t' || c = '\n' || c = '\r' || c = '\x0b' || c = '\x0c'

/-- Python `str.strip()`: remove leading and trailing whitespace. -/
def pyStrip (s : List Char) : List Char :=
  ((s.dropWhile pyIsSpace).reverse.dropWhile pyIsSpace).reverse

/-- Numeric value of a string of decimal digits (Python `int`/`float` of the
integer part of the matched group). -/
def natOfDigits (ds : List Char) : Nat :=
  ds.foldl (fun n c => 10 * n + (c.toNat - ('0').toNat)) 0

/-- Exact value of the float literal `⟨ds⟩.⟨fs⟩` (or `⟨ds⟩` when `fs = []`)
produced by `float(match.group(1))` in `_get_weighted_choice`. -/
def qOfDigits (ds fs : List Char) : ℚ :=
  (natOfDigits ds : ℚ) + (natOfDigits fs : ℚ) / (10 : ℚ) ^ fs.length

/-- The regex `re.match(r"^\s*(\d+(?:\.\d+)?)::(.*)$", c)` from
`_get_weighted_choice`, lines 87-89 of `src/nodes.py`.  Returns the weight
(group 1, as an exact rational) and group 2 on success.

The pieces, mirroring the regex engine on this pattern (no backtracking can
change the outcome, because `\s`, `\d`, `.` and `:` are pairwise disjoint at
each boundary):
* `\s*`   : maximal whitespace run;
* `\d+`   : maximal digit run, nonempty;
* `(?:\.\d+)?` : a dot followed by a nonempty maximal digit run, if present;
* `::`    : literal;
* `(.*)$` : `.` does not match `'\n'` and `$` anchors at the end of the string
  or just before one final trailing newline, so the remainder must contain no
  newline except possibly a single last character `'\n'`, which is not part of
  group 2. -/
def weightMatch (c : List Char) : Option (ℚ × List Char) :=
  let s1 := c.dropWhile pyIsSpace
  let ds := s1.takeWhile Char.isDigit
  if ds.isEmpty then none
  else
    let s2 := s1.dropWhile Char.isDigit
    -- optional fractional part `(?:\.\d+)?`: present iff a dot is followed by
    -- at least one digit (the group matches fully or not at all)
    let hasFrac := s2.head? = some '.' ∧ (s2.tail.takeWhile Char.isDigit) ≠ []
    let fs := if hasFrac then s2.tail.takeWhile Char.isDigit else []
    let s3 := if hasFrac then s2.tail.dropWhile Char.isDigit else s2
    -- the literal `::`
    if s3.head? = some ':' ∧ s3.tail.head? = some ':' then
      let r := s3.tail.tail
      if '\n' ∈ r then
        if r.getLast? = some '\n' ∧ '\n' ∉ r.dropLast then
          some (qOfDigits ds fs, r.dropLast)
        else none
      else some (qOfDigits ds fs, r)
    else none

/-- One alternative as parsed by the loop body of `_get_weighted_choice`
(lines 85-96): on a regex match the weight is group 1 and the text is group 2
stripped; otherwise the weight is `1.0` and the text is the whole alternative
stripped. -/
def parseWeightedAlt (c : List Char) : ℚ × List Char :=
  match weightMatch c with
  | some (w, rest) => (w, pyStrip rest)
  | none => (1, pyStrip c)

/-- `itertools.accumulate(weights)` as used by `random.Random.choices`:
the list of partial sums `[w₀, w₀+w₁, …]`. -/
def cumsum (ws : List ℚ) : List ℚ :=
  (List.range ws.length).map (fun i => ((ws.take (i + 1)).sum))

/-- The binary search of `bisect.bisect_right(cum_weights, x, 0, hi)` used by
`random.Random.choices`.  The loop `while lo < hi` strictly shrinks `hi - lo`,
so fuel `hi - lo` always suffices; the wrapper `bisect` supplies it. -/
def bisectAux : Nat → List ℚ → ℚ → Nat → Nat → Nat
  | 0, _, _, lo, _ => lo
  | fuel + 1, a, x, lo, hi =>
    if lo < hi then
      let mid := (lo + hi) / 2
      if x < a.getD mid 0 then bisectAux fuel a x lo mid
      else bisectAux fuel a x (mid + 1) hi
    else lo

/-- `bisect.bisect_right(a, x, lo, hi)` (CPython `bisect` module). -/
def bisect (a : List ℚ) (x : ℚ) (lo hi : Nat) : Nat :=
  bisectAux (hi - lo) a x lo hi

/-- Errors surfaced by the embedded functions.  `valueError` models the
`ValueError` that `random.Random.choices` raises when the total weight is not
positive (or the population is empty); `fuelOut` models non-termination /
recursion overflow. -/
inductive PyErr where
  | valueError : PyErr
  | fuelOut : PyErr
deriving DecidableEq, Repr

/-- `_get_weighted_choice(choices, choice_block_id)` (lines 77-100 of
`src/nodes.py`) for one draw `u` of `self._random.random()`.

Note that the Python method receives `choice_block_id` but never reads it, and
never touches `self._choice_history`; accordingly the embedding takes no
block-identity or history argument.  The selection is
`self._random.choices(parsed_choices, weights=weights, k=1)[0]`, whose CPython
implementation computes the cumulative weights, raises `ValueError` when the
total is not greater than zero (an empty population raises as well), and
otherwise returns `population[bisect(cum_weights, random()*total, 0, n-1)]`. -/
def get_weighted_choice (choices : List (List Char)) (u : ℚ) :
    Except PyErr (List Char) :=
  let parsed := choices.map parseWeightedAlt
  let texts := parsed.map Prod.snd
  let weights := parsed.map Prod.fst
  let cum := cumsum weights
  match cum.getLast? with
  | none => .error .valueError
  | some total =>
    if total ≤ 0 then .error .valueError
    else .ok (texts.getD (bisect cum (u * total) 0 (texts.length - 1)) [])

/-- The seeded pseudo-random source `self._random`, abstracted as two ambient
streams: `nats k` models the value of `_randbelow` used by the `k`-th call of
`random.choice` (the wildcard resolver), `qs k` models the `k`-th draw of
`random.random()` inside `random.choices` (the weighted selector).  Cursor
positions into the streams are threaded explicitly. -/
structure Rng where
  nats : Nat → Nat
  qs : Nat → ℚ

/-! ## Wildcard resolver (`_process_wildcards`, lines 51-71) -/

/-- `text.find("__")` together with the slicing done by the loop body: if the
two-character marker `"__"` occurs in `s`, returns the part before the first
occurrence and the part after it (`s = pre ++ '_' :: '_' :: rest`). -/
def splitUU : List Char → Option (List Char × List Char)
  | [] => none
  | [_] => none
  | c :: d :: rest =>
    if c = '_' ∧ d = '_' then some ([], rest)
    else (splitUU (d :: rest)).map (fun pr => (c :: pr.1, pr.2))

/-- One iteration of the `while "__" in text` loop of `_process_wildcards`:
`none` when the loop exits (no `"__"` in the text, or the first `"__"` has no
closing `"__"` — the `break` at line 57), otherwise the substituted text and
the advanced stream cursor.

`table` models the composition of `self._wildcards_cache` with
`_load_wildcard_file`: the word list backing each wildcard name (the files
live outside the repository; a missing or unreadable file is the empty list).
When the list is nonempty, `random.choice(options)` is
`options[_randbelow(len(options))]`, modelled as indexing by the next natural
stream value reduced mod the length; when it is empty the bare wildcard name
is substituted. -/
def wildcard_step (table : List Char → List (List Char)) (rng : Rng)
    (kn : Nat) (s : List Char) : Option (List Char × Nat) :=
  match splitUU s with
  | none => none
  | some (pre, rest) =>
    match splitUU rest with
    | none => none
    | some (name, suf) =>
      let options := table name
      if options.isEmpty then some (pre ++ name ++ suf, kn)
      else some (pre ++ options.getD (rng.nats kn % options.length) [] ++ suf, kn + 1)

/-- `_process_wildcards(text)`: iterate `wildcard_step` until the loop exits.
The Python loop rescans from the start after every substitution and has no
intrinsic bound, so the embedding takes fuel; `none` models non-termination
within the given fuel. -/
def process_wildcards (table : List Char → List (List Char)) (rng : Rng) :
    Nat → Nat → List Char → Option (List Char × Nat)
  | 0, _, _ => none
  | fuel + 1, kn, s =>
    match wildcard_step table rng kn s with
    | none => some (s, kn)
    | some (s', kn') => process_wildcards table rng fuel kn' s'

/-- Occurrence counter for the marker `"__"`: `occAux p s` counts the indices
`i` of `s` with `s[i] = s[i+1] = '_'`, where `p` records whether the character
just before `s` was `'_'` (so boundary occurrences are counted too). -/
def occAux : Bool → List Char → Nat
  | _, [] => 0
  | p, c :: rest => (if p && (c == '_') then 1 else 0) + occAux (c == '_') rest

/-- Number of (possibly overlapping) occurrences of `"__"` in `s`. -/
def occCount (s : List Char) : Nat := occAux false s

/-- Whether the last character of `s` is `'_'` (`p` for the empty list). -/
def lastU (p : Bool) : List Char → Bool
  | [] => p
  | c :: rest => lastU (c == '_') rest

/-- The number of `__name__` marker pairs under the pairing the rescan loop
uses (the first `"__"` pairs with the next `"__"`; an unmatched opening
marker closes no pair).  Each pair spans at least four characters, so fuel
`s.length` always suffices; the wrapper `pairCount` supplies it. -/
def pairCountAux : Nat → List Char → Nat
  | 0, _ => 0
  | fuel + 1, s =>
    match splitUU s with
    | none => 0
    | some (_, rest) =>
      match splitUU rest with
      | none => 0
      | some (_, suf) => 1 + pairCountAux fuel suf

/-- Number of greedily paired `__name__` marker pairs in `s`. -/
def pairCount (s : List Char) : Nat := pairCountAux s.length s

/-! ## Comment stripping (`_process_choices`, lines 106-108) -/

/-- Scan for the first `"*/"` and return what follows it (`none` when there is
no closing marker) — the lazy `.*?\*/` part of the block-comment regex. -/
def cutClose : List Char → Option (List Char)
  | [] => none
  | [_] => none
  | c :: d :: rest =>
    if c = '*' ∧ d = '/' then some rest
    else cutClose (d :: rest)

/-- `re.sub(r"/\*.*?\*/", "", text, flags=re.DOTALL)`: each `"/*"` that has a
closing `"*/"` is removed together with everything up to and including the
first such closer; a `"/*"` with no closer matches nothing and is kept (and
then nothing after it can match either, since no `"*/"` follows).  Each
substitution consumes at least one character, so fuel `s.length` suffices. -/
def stripBlockAux : Nat → List Char → List Char
  | 0, s => s
  | _ + 1, [] => []
  | fuel + 1, c :: rest =>
    match c :: rest with
    | '/' :: '*' :: r2 =>
      match cutClose r2 with
      | some r3 => stripBlockAux fuel r3
      | none => '/' :: '*' :: r2
    | _ => c :: stripBlockAux fuel rest

/-- Block-comment removal (line 107 of `src/nodes.py`). -/
def strip_block (s : List Char) : List Char := stripBlockAux s.length s

/-- `re.sub(r"//.*", "", text)`: from each `"//"` remove up to (but not
including) the end of the line — `.` does not match `'\n'`. -/
def stripLineAux : Nat → List Char → List Char
  | 0, s => s
  | _ + 1, [] => []
  | fuel + 1, c :: rest =>
    match c :: rest with
    | '/' :: '/' :: r2 => stripLineAux fuel (r2.dropWhile (fun x => x != '\n'))
    | _ => c :: stripLineAux fuel rest

/-- Line-comment removal (line 108 of `src/nodes.py`). -/
def strip_line (s : List Char) : List Char := stripLineAux s.length s

/-! ## Choice parser (`_process_choices`, lines 110-171) -/

/-- The matching-brace scan of lines 115-122: given the text after an opening
`'{'` and the current `brace_level`, return the interior of the block and the
text after the matching `'}'`, or `none` when the braces never rebalance
before the end of the input. -/
def findBlock : List Char → Nat → Option (List Char × List Char)
  | [], _ => none
  | c :: rest, lvl =>
    if c = '{' then (findBlock rest (lvl + 1)).map (fun p => ('{' :: p.1, p.2))
    else if c = '}' then
      if lvl = 1 then some ([], rest)
      else (findBlock rest (lvl - 1)).map (fun p => ('}' :: p.1, p.2))
    else (findBlock rest lvl).map (fun p => (c :: p.1, p.2))

/-- The splitting loop of lines 129-147: split the interior of a block on the
`'|'` characters at nesting depth zero, stripping every piece; the piece after
the last `'|'` is appended only when it is nonempty *before* stripping
(`if current_choice:` tests the raw character list). -/
def splitTopAux : List Char → List Char → Int → List (List Char)
  | [], cur, _ => if cur.isEmpty then [] else [pyStrip cur]
  | c :: rest, cur, lvl =>
    if c = '{' then splitTopAux rest (cur ++ ['{']) (lvl + 1)
    else if c = '}' then splitTopAux rest (cur ++ ['}']) (lvl - 1)
    else if c = '|' ∧ lvl = 0 then pyStrip cur :: splitTopAux rest [] lvl
    else splitTopAux rest (cur ++ [c]) lvl

/-- Top-level alternatives of a block interior, as the source computes them. -/
def splitTopLevel (s : List Char) : List (List Char) := splitTopAux s [] 0

/-- The same split, but keeping every raw piece (no stripping, no dropping of
the trailing piece).  Used to state what the split does to the trailing
alternative. -/
def rawSplitTopAux : List Char → List Char → Int → List (List Char)
  | [], cur, _ => [cur]
  | c :: rest, cur, lvl =>
    if c = '{' then rawSplitTopAux rest (cur ++ ['{']) (lvl + 1)
    else if c = '}' then rawSplitTopAux rest (cur ++ ['}']) (lvl - 1)
    else if c = '|' ∧ lvl = 0 then cur :: rawSplitTopAux rest [] lvl
    else rawSplitTopAux rest (cur ++ [c]) lvl

/-- Raw top-level pieces of a block interior (before trimming; the trailing
piece is kept even when empty). -/
def rawSplitTop (s : List Char) : List (List Char) := rawSplitTopAux s [] 0

mutual

/-- `_process_choices(text)` (lines 102-171): strip comments, then scan for
choice blocks.  Fuel is decremented on every recursive call of the three
scanning functions; `PyErr.fuelOut` models exhausting it. -/
def process_choices (rng : Rng) : Nat → Nat → List Char →
    Except PyErr (List Char × Nat)
  | 0, _, _ => .error .fuelOut
  | fuel + 1, kq, s => scan_choices rng fuel kq (strip_line (strip_block s))

/-- The scanning loop of lines 110-169: copy characters through; at an
opening brace, either resolve the balanced block or (when unmatched) emit the
`'{'` literally and continue one character later. -/
def scan_choices (rng : Rng) : Nat → Nat → List Char →
    Except PyErr (List Char × Nat)
  | 0, _, _ => .error .fuelOut
  | _ + 1, kq, [] => .ok ([], kq)
  | fuel + 1, kq, c :: rest =>
    if c = '{' then
      match findBlock rest 1 with
      | none =>
        -- unmatched `'{'`: emit it and advance one character (lines 164-166)
        (scan_choices rng fuel kq rest).map (fun p => ('{' :: p.1, p.2))
      | some (inner, after) =>
        match process_alts rng fuel kq (splitTopLevel inner) with
        | .error e => .error e
        | .ok (processed, kq') =>
          if processed.isEmpty then scan_choices rng fuel kq' after
          else
            match get_weighted_choice processed (rng.qs kq') with
            | .error e => .error e
            | .ok sel =>
              (scan_choices rng fuel (kq' + 1) after).map
                (fun p => (sel ++ p.1, p.2))
    else (scan_choices rng fuel kq rest).map (fun p => (c :: p.1, p.2))

/-- The recursive resolution loop of lines 150-155: alternatives containing
`'{'` are fed back through `_process_choices`; the others pass through. -/
def process_alts (rng : Rng) : Nat → Nat → List (List Char) →
    Except PyErr (List (List Char) × Nat)
  | 0, _, _ => .error .fuelOut
  | _ + 1, kq, [] => .ok ([], kq)
  | fuel + 1, kq, c :: cs =>
    if '{' ∈ c then
      match process_choices rng fuel kq c with
      | .error e => .error e
      | .ok (c', kq') =>
        (process_alts rng fuel kq' cs).map (fun p => (c' :: p.1, p.2))
    else (process_alts rng fuel kq cs).map (fun p => (c :: p.1, p.2))

end

/-! ## Blank-line limiter (`_limit_blank_lines`, lines 173-177) -/

/-- `re.sub(r"(\n\s*){N+1,}", "\n"*N, text)`, scanning left to right.  On this
pattern a match starts exactly at a `'\n'` whose maximal whitespace run
contains more than `maxC` newlines (each repetition of `\n\s*` consumes one of
the newlines of the run, and the greedy final `\s*` extends the match to the
end of the run), and the whole run is replaced by `maxC` newlines.  Each step
consumes at least one character, so fuel `s.length` suffices. -/
def limitAux (maxC : Nat) : Nat → List Char → List Char
  | 0, s => s
  | _ + 1, [] => []
  | fuel + 1, c :: rest =>
    if c = '\n' ∧ maxC + 1 ≤ ((c :: rest).takeWhile pyIsSpace).count '\n' then
      List.replicate maxC '\n' ++ limitAux maxC fuel ((c :: rest).dropWhile pyIsSpace)
    else c :: limitAux maxC fuel rest

/-- `_limit_blank_lines(text, max_consecutive)`. -/
def limit_blank_lines (maxC : Nat) (s : List Char) : List Char :=
  limitAux maxC s.length s

/-! ## Invocation surface and orchestrator (lines 179-230) -/

/-- The names of the fields of `INPUT_TYPES()["required"]` (lines 179-200):
the node accepts exactly a template text, a seed and an auto-refresh combo —
there is no blank-line toggle and no threshold input. -/
def INPUT_TYPES_required : List String := ["text", "seed", "autorefresh"]

/-- `generate(text, seed, autorefresh)` (lines 207-230) after the seeding
step.  Seeding only selects and resets the stream `rng` (a fresh nonzero seed
reseeds deterministically and clears the unused `_choice_history`; seed `0`
reseeds from the wall clock), so the embedding abstracts it into the `rng`
parameter.  The `try` block runs the wildcard resolver, the choice parser and
the blank-line limiter (always, with `max_consecutive=3`); any raised error is
caught and replaced by the literal fallback string.  `none` models
non-termination of the wildcard loop within the given fuel. -/
def generate (table : List Char → List (List Char)) (rng : Rng)
    (kn kq fuel : Nat) (s : List Char) : Option (List Char) :=
  match process_wildcards table rng fuel kn s with
  | none => none
  | some (t, _) =>
    match process_choices rng fuel kq t with
    | .error .fuelOut => none
    | .error .valueError => some (("Error in prompt generation").toList)
    | .ok (r, _) => some (limit_blank_lines 3 r)

/-! ## Derived definitions used in theorem statements -/

/-- The weights of the alternatives, as `_get_weighted_choice` parses them. -/
def altWeights (cs : List (List Char)) : List ℚ :=
  cs.map (fun c => (parseWeightedAlt c).1)

/-- The emitted texts of the alternatives, as `_get_weighted_choice` parses
them. -/
def altTexts (cs : List (List Char)) : List (List Char) :=
  cs.map (fun c => (parseWeightedAlt c).2)

/-- The total weight of a block (`cum_weights[-1]` in `random.choices`). -/
def altTotal (cs : List (List Char)) : ℚ := (altWeights cs).sum

/-- The index selected by `random.choices(parsed, weights=…, k=1)` when the
internal `random.random()` draw is `u`. -/
def selIdx (cs : List (List Char)) (u : ℚ) : Nat :=
  bisect (cumsum (altWeights cs)) (u * altTotal cs) 0 (cs.length - 1)

/-- The weight parsing exactly as the claim words it: the pattern
`⟨digits⟩[.⟨digits⟩]::⟨rest⟩` anchored at the very beginning of the
alternative (no leading whitespace allowed) with the remainder running to the
end of the alternative (no newline restriction).  Used only to exhibit where
the claim's wording and the source regex (which starts with `\s*` and whose
`(.*)$` cannot cross a newline) disagree. -/
def parseWeightedAltClaimed (c : List Char) : ℚ × List Char :=
  let ds := c.takeWhile Char.isDigit
  if ds.isEmpty then (1, pyStrip c)
  else
    let s2 := c.dropWhile Char.isDigit
    let hasFrac := s2.head? = some '.' ∧ (s2.tail.takeWhile Char.isDigit) ≠ []
    let fs := if hasFrac then s2.tail.takeWhile Char.isDigit else []
    let s3 := if hasFrac then s2.tail.dropWhile Char.isDigit else s2
    if s3.head? = some ':' ∧ s3.tail.head? = some ':' then
      (qOfDigits ds fs, pyStrip s3.tail.tail)
    else (1, pyStrip c)

/-- What the split loop produces out of the raw top-level pieces: drop the
trailing piece exactly when it is empty before trimming, and trim the rest. -/
def postSplit (raw : List (List Char)) : List (List Char) :=
  (if raw.getLast? = some [] then raw.dropLast else raw).map pyStrip

/-- Brace-balance scan, used (like `postSplit`) only to *state* a claim:
scanning `s` from brace depth `lvl`, the depth never drops below zero and
ends at zero.  `braceBal s 0` says every `{` of `s` opens a balanced block
and every `}` closes one — the claim's "balanced block" condition for the
whole template. -/
def braceBal : List Char → Nat → Bool
  | [], lvl => lvl == 0
  | c :: rest, lvl =>
    if c = '{' then braceBal rest (lvl + 1)
    else if c = '}' then decide (0 < lvl) && braceBal rest (lvl - 1)
    else braceBal rest lvl

/-- A concrete deterministic stream (both streams constantly `0`), used for
closed evaluations of the embedded code. -/
def rngZero : Rng := ⟨fun _ => 0, fun _ => 0⟩

/-- The empty wildcard table: every backing word list is missing/empty. -/
def tblEmpty : List Char → List (List Char) := fun _ => []

/-- A wildcard table sending `w` to the single line `q_` (a line that contains
no `"__"` marker, as the C10 precondition demands). -/
def tblW : List Char → List (List Char) :=
  fun nm => if nm = ['w'] then [['q', '_']] else []

/-- A wildcard table whose line for `w` reintroduces the wildcard `__w__`
itself, violating the C10 precondition. -/
def tblLoop : List Char → List (List Char) :=
  fun nm => if nm = ['w'] then [['_', '_', 'w', '_', '_']] else []

/-- The alternatives of the block `{5::sunny|2::cloudy|1::rainy}`, as split
by the choice parser (used to witness the weighted selector claims). -/
def weightedAlts : List (List Char) :=
  [['5', ':', ':', 's', 'u', 'n', 'n', 'y'],
   ['2', ':', ':', 'c', 'l', 'o', 'u', 'd', 'y'],
   ['1', ':', ':', 'r', 'a', 'i', 'n', 'y']]

/-- The nested template `{a|{b|c}}` of claim C1. -/
def tplNested : List Char := ['{', 'a', '|', '{', 'b', '|', 'c', '}', '}']

/-- The unbalanced template `{a|b` of claim C2. -/
def tplUnbalanced : List Char := ['{', 'a', '|', 'b']

/-- The simple block `{a|b}` of claim C4. -/
def tplAB : List Char := ['{', 'a', '|', 'b', '}']

/-- The all-zero-weight block `{0::a|0::b}`, whose selection raises
`ValueError` inside `random.choices` (claim C5's witness input). -/
def tplZeroW : List Char :=
  ['{', '0', ':', ':', 'a', '|', '0', ':', ':', 'b', '}']

/-- The input `__w_____a__b__c` on which one substitution step leaves the
greedy marker-pair count unchanged (claim C10's counterexample input). -/
def tplPairA : List Char :=
  ['_', '_', 'w', '_', '_', '_', '_', '_', 'a', '_', '_', 'b', '_', '_', 'c']

/-- The text produced from `tplPairA` by one substitution step under `tblW`. -/
def tplPairB : List Char :=
  ['q', '_', '_', '_', '_', 'a', '_', '_', 'b', '_', '_', 'c']

/-! ## General helper lemmas -/

theorem takeWhile_append_all (p : Char → Bool) (w b : List Char)
    (hw : ∀ c ∈ w, p c = true) (hb : ∀ c, b.head? = some c → p c = false) :
    (w ++ b).takeWhile p = w ∧ (w ++ b).dropWhile p = b := by
  induction w with
  | nil =>
    cases b with
    | nil => simp
    | cons x t => simp [List.takeWhile_cons, List.dropWhile_cons, hb x rfl]
  | cons c w' ih =>
    have hc : p c = true := hw c (List.mem_cons_self c w')
    have ih' := ih (fun d hd => hw d (List.mem_cons_of_mem c hd))
    simp [List.takeWhile_cons, List.dropWhile_cons, hc, ih'.1, ih'.2]

theorem scan_copy (rng : Rng) :
    ∀ (s : List Char) (fuel kq : Nat), (∀ c ∈ s, c ≠ '{') →
      scan_choices rng (fuel + s.length + 1) kq s = .ok (s, kq) := by
  intro s
  induction s with
  | nil => intro fuel kq _; rfl
  | cons c rest ih =>
    intro fuel kq h
    have hc : c ≠ '{' := h c (List.mem_cons_self c rest)
    have hlen : fuel + (c :: rest).length + 1 = (fuel + rest.length + 1) + 1 := by
      simp [List.length_cons]; omega
    rw [hlen]
    have ih' := ih fuel kq (fun d hd => h d (List.mem_cons_of_mem c hd))
    simp [scan_choices, hc, ih', Except.map]

theorem splitUU_none_of_occCount : ∀ (s : List Char), occCount s = 0 → splitUU s = none := by
  intro s
  induction s with
  | nil => intro _; rfl
  | cons c rest ih =>
    intro h
    cases rest with
    | nil => rfl
    | cons d t =>
      have h' : occAux (c == '_') (d :: t) = 0 := by
        simpa [occCount, occAux] using h
      have hnot : ¬(c = '_' ∧ d = '_') := by
        intro ⟨hc, hd⟩
        subst hc; subst hd
        simp [occAux] at h'
      have ht : occCount (d :: t) = 0 := by
        have : (if (c == '_') && (d == '_') then 1 else 0) + occAux (d == '_') t = 0 := by
          simpa [occAux] using h'
        simp [occCount, occAux]
        omega
      simp [splitUU, hnot, ih ht]

theorem getD_mod_mem (l : List (List Char)) (h : l ≠ []) (k : Nat) :
    l.getD (k % l.length) [] ∈ l := by
  have hlen : 0 < l.length := List.length_pos.mpr h
  have hlt : k % l.length < l.length := Nat.mod_lt _ hlen
  rw [List.getD_eq_getElem?_getD, List.getElem?_eq_getElem hlt]
  exact List.getElem_mem hlt

/-! ## C2: unbalanced `{` is emitted literally -/

/-- C2.  When the scanner meets an opening `{` whose matching `}` does not
exist before the end of the input, it emits that `{` literally and continues
scanning one character later; in particular the unbalanced input `{a|b`
passes through choice processing entirely unchanged, with no character
dropped. -/
theorem C2_unbalanced_brace_literal :
    (∀ (rng : Rng) (fuel kq : Nat) (s : List Char), findBlock s 1 = none →
      scan_choices rng (fuel + 1) kq ('{' :: s) =
        (scan_choices rng fuel kq s).map (fun p => ('{' :: p.1, p.2))) ∧
    (∀ (rng : Rng) (fuel kq : Nat),
      process_choices rng (fuel + 6) kq tplUnbalanced = .ok (tplUnbalanced, kq)) := by
  constructor
  · intro rng fuel kq s h
    simp [scan_choices, h]
  · intro rng fuel kq
    have h2 : findBlock ['a', '|', 'b'] 1 = none := rfl
    have h3 : scan_choices rng (fuel + 3 + 1) kq ['a', '|', 'b'] =
        .ok (['a', '|', 'b'], kq) := by
      simpa using scan_copy rng ['a', '|', 'b'] fuel kq (by decide)
    show scan_choices rng (fuel + 4 + 1) kq ('{' :: ['a', '|', 'b']) = _
    simp [scan_choices, h2, h3, Except.map, tplUnbalanced]

/-- Witness for C2 at a concrete input and stream. -/
theorem C2_unbalanced_brace_literal_witness :
    scan_choices rngZero 5 0 ('{' :: ['a', '|', 'b']) =
      (scan_choices rngZero 4 0 ['a', '|', 'b']).map (fun p => ('{' :: p.1, p.2)) ∧
    process_choices rngZero 16 7 tplUnbalanced = .ok (tplUnbalanced, 7) :=
  ⟨C2_unbalanced_brace_literal.1 rngZero 4 0 ['a', '|', 'b'] rfl,
   C2_unbalanced_brace_literal.2 rngZero 10 7⟩

/-! ## C4: the balanced (least-used-first) strategy is absent -/

/-- C4 (code-bug evidence).  The claim says a balanced selector guarantees
that for `{a|b}`, after a history reset, two consecutive draws from the same
block select `a` and `b` once each.  In the code `_get_weighted_choice`
receives `choice_block_id` but never reads it and never touches
`self._choice_history` (which `_reset_history` clears but nothing updates or
consults), so consecutive draws are independent weighted draws: with both
`random.random()` draws equal to `0`, two consecutive evaluations of `{a|b}`
both select `a`, contradicting the claimed no-immediate-repeat behaviour. -/
theorem C4_balanced_selection_missing :
    process_choices rngZero 10 0 tplAB = .ok (['a'], 1) ∧
    process_choices rngZero 10 1 tplAB = .ok (['a'], 2) := by
  have hsel : get_weighted_choice [['a'], ['b']] 0 = .ok ['a'] := by
    have hpa : parseWeightedAlt ['a'] = (1, ['a']) := rfl
    have hpb : parseWeightedAlt ['b'] = (1, ['b']) := rfl
    norm_num [get_weighted_choice, hpa, hpb, cumsum, List.range_succ, bisect,
      bisectAux, List.getD]
  have hg : ∀ kq' : Nat, process_choices rngZero 10 kq' tplAB =
      (match get_weighted_choice [['a'], ['b']] 0 with
       | .error e => .error e
       | .ok sel => .ok (sel ++ [], kq' + 1)) := fun _ => rfl
  constructor <;> (rw [hg, hsel]; simp)

/-! ## C5: failures are caught and replaced by the fallback string -/

/-- C5.  Whenever the expansion pipeline inside `generate`'s `try` block
raises (the embedded pipeline returns `ValueError`, as `random.choices` does
on an all-non-positive-weight block), `generate` returns exactly the literal
string `"Error in prompt generation"` — never the raised fault and never a
partial expansion. -/
theorem C5_error_fallback :
    ∀ (table : List Char → List (List Char)) (rng : Rng) (kn kq fuel : Nat)
      (s t : List Char) (kn' : Nat),
      process_wildcards table rng fuel kn s = some (t, kn') →
      process_choices rng fuel kq t = .error .valueError →
      generate table rng kn kq fuel s = some (("Error in prompt generation").toList) := by
  intro table rng kn kq fuel s t kn' h1 h2
  simp [generate, h1, h2]

/-- Witness for C5: on the concrete template `{0::a|0::b}` the weighted
selection raises (total weight `0`), and `generate` returns the fallback. -/
theorem C5_error_fallback_witness :
    process_wildcards tblEmpty rngZero 30 0 tplZeroW = some (tplZeroW, 0) ∧
    process_choices rngZero 30 0 tplZeroW = .error .valueError ∧
    generate tblEmpty rngZero 0 0 30 tplZeroW =
      some (("Error in prompt generation").toList) := by
  have h1 : process_wildcards tblEmpty rngZero 30 0 tplZeroW = some (tplZeroW, 0) := rfl
  have hsel : get_weighted_choice [['0', ':', ':', 'a'], ['0', ':', ':', 'b']] 0 =
      .error .valueError := by
    have hq : qOfDigits ['0'] [] = 0 := by
      have hn : natOfDigits ['0'] = 0 := rfl
      have hn0 : natOfDigits [] = 0 := rfl
      norm_num [qOfDigits, hn, hn0]
    have hpa : parseWeightedAlt ['0', ':', ':', 'a'] = (0, ['a']) := by
      have hw : weightMatch ['0', ':', ':', 'a'] = some (qOfDigits ['0'] [], ['a']) := rfl
      have hps : pyStrip ['a'] = ['a'] := rfl
      simp [parseWeightedAlt, hw, hq, hps]
    have hpb : parseWeightedAlt ['0', ':', ':', 'b'] = (0, ['b']) := by
      have hw : weightMatch ['0', ':', ':', 'b'] = some (qOfDigits ['0'] [], ['b']) := rfl
      have hps : pyStrip ['b'] = ['b'] := rfl
      simp [parseWeightedAlt, hw, hq, hps]
    norm_num [get_weighted_choice, hpa, hpb, cumsum, List.range_succ]
  have h2 : process_choices rngZero 30 0 tplZeroW = .error .valueError := by
    have hg : process_choices rngZero 30 0 tplZeroW =
        (match get_weighted_choice [['0', ':', ':', 'a'], ['0', ':', ':', 'b']] 0 with
         | .error e => .error e
         | .ok sel => .ok (sel ++ [], 1)) := rfl
    rw [hg, hsel]
  exact ⟨h1, h2, C5_error_fallback tblEmpty rngZero 0 0 30 tplZeroW tplZeroW 0 h1 h2⟩

/-! ## C6: wildcard substitution and its empty-list fallback -/

/-- Converse of `splitUU_some`: `text.find("__")` locates the first marker, so
when `pre` contains no `"__"` (and does not end in `'_'`, which would let an
occurrence straddle the boundary), the split of `pre ++ "__" ++ rest` is
exactly `(pre, rest)`. -/
theorem splitUU_intro :
    ∀ (pre rest : List Char), occAux false pre = 0 → lastU false pre = false →
      splitUU (pre ++ '_' :: '_' :: rest) = some (pre, rest) := by
  intro pre
  induction pre with
  | nil =>
    intro rest _ _
    simp [splitUU]
  | cons c pre' ih =>
    intro rest hocc hlast
    cases pre' with
    | nil =>
      have hc : (c == '_') = false := by simpa [lastU] using hlast
      have hcne : c ≠ '_' := beq_eq_false_iff_ne.mp hc
      have hc' : ¬(c = '_' ∧ ('_' : Char) = '_') := by
        intro ⟨h1, _⟩
        exact hcne h1
      simp [splitUU, hc', hcne]
    | cons d pre'' =>
      have hnd : ¬(c = '_' ∧ d = '_') := by
        intro ⟨h1, h2⟩
        subst h1; subst h2
        simp [occAux] at hocc
      have hocc' : occAux false (d :: pre'') = 0 := by
        have h1 : occAux (c == '_') (d :: pre'') = 0 := by
          simpa [occAux] using hocc
        have h2 : occAux (d == '_') pre'' = 0 := by
          simp only [occAux] at h1
          omega
        simpa [occAux] using h2
      have hlast' : lastU false (d :: pre'') = false := by
        simpa [lastU] using hlast
      have hrec := ih rest hocc' hlast'
      simp only [List.cons_append] at hrec ⊢
      simp [splitUU, hnd, hrec]

/-- C6.  For *every* wildcard name and *every* surrounding text: when the
scanner's greedy pairing identifies the token `__name__` (the text is
`pre ++ "__" ++ name ++ "__" ++ suf` where neither `pre` nor `name` contains
`"__"` or ends in `'_'` — exactly the condition under which `find` pairs
these two markers), the loop body substitutes the bare name (markers
stripped) when the backing word list is empty or missing, and otherwise the
entry `options[_randbelow(len(options))]` selected by the random draw, which
is always an element of the list; the draw cursor advances only in the
nonempty case.  For a text consisting of the token alone the whole loop then
returns the substitution, provided (in the nonempty case) that no word-list
entry reintroduces a marker. -/
theorem C6_wildcard_fallback_and_random :
    ∀ (table : List Char → List (List Char)) (rng : Rng) (name : List Char),
      occAux false name = 0 → lastU false name = false →
      (∀ (kn : Nat) (pre suf : List Char),
        occAux false pre = 0 → lastU false pre = false →
        wildcard_step table rng kn (pre ++ '_' :: '_' :: (name ++ '_' :: '_' :: suf)) =
          (if (table name).isEmpty then some (pre ++ name ++ suf, kn)
           else some (pre ++
             (table name).getD (rng.nats kn % (table name).length) [] ++ suf,
             kn + 1))) ∧
      (table name ≠ [] → ∀ kn : Nat,
        (table name).getD (rng.nats kn % (table name).length) [] ∈ table name) ∧
      (table name = [] → ∀ fuel kn : Nat,
        process_wildcards table rng (fuel + 2) kn
            ('_' :: '_' :: (name ++ '_' :: '_' :: [])) = some (name, kn)) ∧
      ((∀ l ∈ table name, occCount l = 0) → table name ≠ [] → ∀ fuel kn : Nat,
        process_wildcards table rng (fuel + 2) kn
            ('_' :: '_' :: (name ++ '_' :: '_' :: [])) =
          some ((table name).getD (rng.nats kn % (table name).length) [], kn + 1)) := by
  intro table rng name hn1 hn2
  have hstep : ∀ (kn : Nat) (pre suf : List Char),
      occAux false pre = 0 → lastU false pre = false →
      wildcard_step table rng kn (pre ++ '_' :: '_' :: (name ++ '_' :: '_' :: suf)) =
        (if (table name).isEmpty then some (pre ++ name ++ suf, kn)
         else some (pre ++
           (table name).getD (rng.nats kn % (table name).length) [] ++ suf,
           kn + 1)) := by
    intro kn pre suf hp1 hp2
    have h1 : splitUU (pre ++ '_' :: '_' :: (name ++ '_' :: '_' :: suf)) =
        some (pre, name ++ '_' :: '_' :: suf) := splitUU_intro pre _ hp1 hp2
    have h2 : splitUU (name ++ '_' :: '_' :: suf) = some (name, suf) :=
      splitUU_intro name suf hn1 hn2
    simp only [wildcard_step, h1, h2]
  refine ⟨hstep, ?_, ?_, ?_⟩
  · intro hne kn
    exact getD_mod_mem (table name) hne _
  · intro hemp fuel kn
    have hs : wildcard_step table rng kn
        ('_' :: '_' :: (name ++ '_' :: '_' :: [])) = some (name, kn) := by
      have := hstep kn [] [] rfl rfl
      simpa [hemp] using this
    have hs2 : wildcard_step table rng kn name = none := by
      have hnone : splitUU name = none := splitUU_none_of_occCount name hn1
      unfold wildcard_step
      rw [hnone]
    show process_wildcards table rng (fuel + 1 + 1) kn _ = _
    simp only [process_wildcards, hs, hs2]
  · intro hocc hne fuel kn
    have hemp : (table name).isEmpty = false := by
      cases h : table name with
      | nil => exact absurd h hne
      | cons x t => rfl
    have hs : wildcard_step table rng kn
        ('_' :: '_' :: (name ++ '_' :: '_' :: [])) =
        some ((table name).getD (rng.nats kn % (table name).length) [], kn + 1) := by
      have := hstep kn [] [] rfl rfl
      simpa [hemp] using this
    have hs2 : wildcard_step table rng (kn + 1)
        ((table name).getD (rng.nats kn % (table name).length) []) = none := by
      have hmem : (table name).getD (rng.nats kn % (table name).length) [] ∈ table name :=
        getD_mod_mem (table name) hne _
      have hnone : splitUU ((table name).getD (rng.nats kn % (table name).length) []) =
          none := splitUU_none_of_occCount _ (hocc _ hmem)
      unfold wildcard_step
      rw [hnone]
    show process_wildcards table rng (fuel + 1 + 1) kn _ = _
    simp only [process_wildcards, hs, hs2]

/-- Witness for C6 at concrete instances: the token `__w__` embedded in the
surrounding text `x…y` with the table `w ↦ ["q_"]` substitutes the drawn
entry; the drawn entry is a member; with an empty table the isolated
`__ghost__` resolves to `ghost`; with the nonempty table the isolated
`__w__` resolves to the drawn entry `q_`. -/
theorem C6_wildcard_fallback_and_random_witness :
    wildcard_step tblW rngZero 3 (['x'] ++ '_' :: '_' :: (['w'] ++ '_' :: '_' :: ['y'])) =
      (if (tblW ['w']).isEmpty then some (['x'] ++ ['w'] ++ ['y'], 3)
       else some (['x'] ++ (tblW ['w']).getD (rngZero.nats 3 % (tblW ['w']).length) []
         ++ ['y'], 4)) ∧
    (tblW ['w']).getD (rngZero.nats 5 % (tblW ['w']).length) [] ∈ tblW ['w'] ∧
    process_wildcards tblEmpty rngZero 2 0
        ('_' :: '_' :: (['g', 'h', 'o', 's', 't'] ++ '_' :: '_' :: [])) =
      some (['g', 'h', 'o', 's', 't'], 0) ∧
    process_wildcards tblW rngZero 2 5 ('_' :: '_' :: (['w'] ++ '_' :: '_' :: [])) =
      some ((tblW ['w']).getD (rngZero.nats 5 % (tblW ['w']).length) [], 6) := by
  refine ⟨?_, ?_, ?_, ?_⟩
  · exact (C6_wildcard_fallback_and_random tblW rngZero ['w'] rfl rfl).1
      3 ['x'] ['y'] rfl rfl
  · exact (C6_wildcard_fallback_and_random tblW rngZero ['w'] rfl rfl).2.1
      (by decide) 5
  · exact (C6_wildcard_fallback_and_random tblEmpty rngZero
      ['g', 'h', 'o', 's', 't'] rfl rfl).2.2.1 rfl 0 0
  · exact (C6_wildcard_fallback_and_random tblW rngZero ['w'] rfl rfl).2.2.2
      (by decide) (by decide) 0 5

/-! ## C8: the blank-line pass is not toggleable -/

/-- C8 (counterexample).  The claim says the invocation surface accepts a
blank-line-limit toggle and a threshold defaulting to 3 and that the pass
runs only when enabled.  The required inputs of `INPUT_TYPES` are exactly
`text`, `seed` and `autorefresh` — no toggle, no threshold — and `generate`
applies the blank-line limiter anyway (here collapsing six newlines to
three with nothing having enabled it). -/
theorem C8_counterexample :
    INPUT_TYPES_required = ["text", "seed", "autorefresh"] ∧
    generate tblEmpty rngZero 0 0 30 (("a\n\n\n\n\n\nb").toList) =
      some (("a\n\n\nb").toList) := by
  exact ⟨rfl, rfl⟩

/-- C8 (amended).  The invocation surface has no blank-line toggle and no
threshold input; whenever the pipeline succeeds, `generate` unconditionally
applies `_limit_blank_lines` with the fixed threshold 3 (the function's
default parameter) to the expanded text. -/
theorem C8_limiter_unconditional :
    ∀ (table : List Char → List (List Char)) (rng : Rng) (kn kq fuel : Nat)
      (s t : List Char) (kn' : Nat) (r : List Char) (kq' : Nat),
      process_wildcards table rng fuel kn s = some (t, kn') →
      process_choices rng fuel kq t = .ok (r, kq') →
      generate table rng kn kq fuel s = some (limit_blank_lines 3 r) ∧
      INPUT_TYPES_required = ["text", "seed", "autorefresh"] := by
  intro table rng kn kq fuel s t kn' r kq' h1 h2
  exact ⟨by simp [generate, h1, h2], rfl⟩

/-- Witness for C8 (amended): concrete run in which the limiter is applied
with threshold 3 although nothing enabled it. -/
theorem C8_limiter_unconditional_witness :
    generate tblEmpty rngZero 0 0 30 (("a\n\n\n\n\n\nb").toList) =
      some (limit_blank_lines 3 (("a\n\n\n\n\n\nb").toList)) ∧
    INPUT_TYPES_required = ["text", "seed", "autorefresh"] :=
  C8_limiter_unconditional tblEmpty rngZero 0 0 30 (("a\n\n\n\n\n\nb").toList)
    (("a\n\n\n\n\n\nb").toList) 0 (("a\n\n\n\n\n\nb").toList) 0 rfl rfl

/-! ## C9: the trailing alternative of a split -/

/-- C9 (counterexample).  The claim says the trailing alternative is included
iff it is non-empty *after* trimming.  The code tests `if current_choice:` on
the raw character list before stripping: for the interior `a| `, whose
trailing alternative is the single space (empty after trimming), the source
split produces `["a", ""]` — the whitespace-only trailing alternative is
included (as the empty string), not dropped. -/
theorem C9_counterexample :
    splitTopLevel ['a', '|', ' '] = [['a'], []] ∧
    splitTopLevel ['a', '|', ' '] ≠ [['a']] := by
  exact ⟨rfl, by decide⟩

theorem rawSplitTopAux_ne_nil :
    ∀ (s cur : List Char) (lvl : Int), rawSplitTopAux s cur lvl ≠ [] := by
  intro s
  induction s with
  | nil => intro cur lvl; simp [rawSplitTopAux]
  | cons c rest ih =>
    intro cur lvl
    unfold rawSplitTopAux
    split_ifs with h1 h2 h3
    · exact ih _ _
    · exact ih _ _
    · simp
    · exact ih _ _

theorem postSplit_cons (x : List Char) (raws : List (List Char)) (h : raws ≠ []) :
    postSplit (x :: raws) = pyStrip x :: postSplit raws := by
  cases raws with
  | nil => exact absurd rfl h
  | cons y t =>
    unfold postSplit
    rw [List.getLast?_cons_cons]
    split_ifs with hlast
    · rw [List.dropLast_cons₂, List.map_cons]
    · rw [List.map_cons]

theorem splitTopAux_eq_postSplit :
    ∀ (s cur : List Char) (lvl : Int),
      splitTopAux s cur lvl = postSplit (rawSplitTopAux s cur lvl) := by
  intro s
  induction s with
  | nil =>
    intro cur lvl
    by_cases h : cur = []
    · subst h; simp [splitTopAux, rawSplitTopAux, postSplit]
    · simp [splitTopAux, rawSplitTopAux, postSplit, h, List.isEmpty_iff]
  | cons c rest ih =>
    intro cur lvl
    unfold splitTopAux rawSplitTopAux
    split_ifs with h1 h2 h3
    · exact ih _ _
    · exact ih _ _
    · rw [postSplit_cons _ _ (rawSplitTopAux_ne_nil _ _ _), ih]
    · exact ih _ _

/-- C9 (amended).  When splitting a block interior on top-level `|`, every
alternative is trimmed and the intermediate (pre-`|`) pieces are always
included, even when empty; the trailing piece (after the last `|`) is
included iff it is non-empty *before* trimming — a whitespace-only trailing
piece is included and trims to the empty alternative. -/
theorem C9_split_amended :
    ∀ s : List Char, splitTopLevel s = postSplit (rawSplitTop s) := by
  intro s
  exact splitTopAux_eq_postSplit s [] 0

/-! ## C7: blank-line limiting -/

theorem limitAux_nonws (N : Nat) :
    ∀ (a : List Char) (t : List Char) (f : Nat), (∀ c ∈ a, pyIsSpace c = false) →
      limitAux N (a.length + f) (a ++ t) = a ++ limitAux N f t := by
  intro a
  induction a with
  | nil => intro t f _; simp
  | cons c a' ih =>
    intro t f h
    have hc : pyIsSpace c = false := h c (List.mem_cons_self c a')
    have hcn : ¬(c = '\n') := by
      intro hh; subst hh; simp [pyIsSpace] at hc
    have harith : (c :: a').length + f = (a'.length + f) + 1 := by
      simp [List.length_cons]; omega
    rw [harith]
    show limitAux N ((a'.length + f) + 1) (c :: (a' ++ t)) = _
    rw [limitAux]
    simp only [hcn, false_and, if_false]
    rw [ih t f (fun d hd => h d (List.mem_cons_of_mem c hd))]
    rfl

theorem limitAux_collapse (N : Nat) (w b : List Char) (f : Nat)
    (hw : ∀ c ∈ w, pyIsSpace c = true) (hw1 : w.head? = some '\n')
    (hcount : N + 1 ≤ w.count '\n')
    (hb : ∀ c, b.head? = some c → pyIsSpace c = false) :
    limitAux N (f + 1) (w ++ b) = List.replicate N '\n' ++ limitAux N f b := by
  obtain ⟨w', rfl⟩ : ∃ w', w = '\n' :: w' := by
    cases w with
    | nil => simp at hw1
    | cons x t => simp at hw1; exact ⟨t, by rw [hw1]⟩
  have htk := takeWhile_append_all pyIsSpace ('\n' :: w') b hw hb
  show limitAux N (f + 1) ('\n' :: (w' ++ b)) = _
  rw [limitAux]
  have hcond : ('\n' : Char) = '\n' ∧
      N + 1 ≤ (((('\n' :: (w' ++ b))).takeWhile pyIsSpace).count '\n') := by
    refine ⟨rfl, ?_⟩
    have : ('\n' :: (w' ++ b)).takeWhile pyIsSpace = '\n' :: w' := htk.1
    rw [this]
    exact hcount
  rw [if_pos hcond]
  have hdw : ('\n' :: (w' ++ b)).dropWhile pyIsSpace = b := htk.2
  rw [hdw]

theorem limitAux_keep (N : Nat) :
    ∀ (w : List Char) (b : List Char) (f : Nat), (∀ c ∈ w, pyIsSpace c = true) →
      w.count '\n' ≤ N → (∀ c, b.head? = some c → pyIsSpace c = false) →
      limitAux N (w.length + f) (w ++ b) = w ++ limitAux N f b := by
  intro w
  induction w with
  | nil => intro b f _ _ _; simp
  | cons c w' ih =>
    intro b f hw hcount hb
    have hc : pyIsSpace c = true := hw c (List.mem_cons_self c w')
    have harith : (c :: w').length + f = (w'.length + f) + 1 := by
      simp [List.length_cons]; omega
    rw [harith]
    show limitAux N ((w'.length + f) + 1) (c :: (w' ++ b)) = _
    rw [limitAux]
    have htk := takeWhile_append_all pyIsSpace (c :: w') b hw hb
    have hcond : ¬(c = '\n' ∧
        N + 1 ≤ ((((c :: (w' ++ b))).takeWhile pyIsSpace).count '\n')) := by
      intro ⟨h1, h2⟩
      have : (c :: (w' ++ b)).takeWhile pyIsSpace = c :: w' := htk.1
      rw [this] at h2
      omega
    rw [if_neg hcond]
    have hcount' : w'.count '\n' ≤ N := by
      by_cases hc' : c = '\n'
      · subst hc'; simp [List.count_cons] at hcount; omega
      · have : (c :: w').count '\n' = w'.count '\n' := by
          simp [List.count_cons, hc']
        omega
    rw [ih b f (fun d hd => hw d (List.mem_cons_of_mem c hd)) hcount' hb]
    rfl

theorem limitAux_irrel (N : Nat) :
    ∀ (f g : Nat) (s : List Char), s.length ≤ f → s.length ≤ g →
      limitAux N f s = limitAux N g s := by
  intro f
  induction f with
  | zero =>
    intro g s hf _
    have : s = [] := List.length_eq_zero.mp (Nat.le_zero.mp hf)
    subst this
    cases g <;> rfl
  | succ f' ih =>
    intro g s hf hg
    cases s with
    | nil => cases g <;> rfl
    | cons c rest =>
      cases g with
      | zero => simp at hg
      | succ g' =>
        rw [limitAux, limitAux]
        by_cases hcond : c = '\n' ∧
            N + 1 ≤ (((c :: rest).takeWhile pyIsSpace).count '\n')
        · rw [if_pos hcond, if_pos hcond]
          have hd : (c :: rest).dropWhile pyIsSpace = rest.dropWhile pyIsSpace := by
            have : pyIsSpace c = true := by
              obtain ⟨h1, _⟩ := hcond; subst h1; rfl
            simp [List.dropWhile_cons, this]
          have hlen : ((c :: rest).dropWhile pyIsSpace).length ≤ rest.length := by
            rw [hd]
            exact (List.dropWhile_sublist pyIsSpace (l := rest)).length_le
          have hlf : ((c :: rest).dropWhile pyIsSpace).length ≤ f' := by
            have : rest.length ≤ f' := by simpa using hf
            omega
          have hlg : ((c :: rest).dropWhile pyIsSpace).length ≤ g' := by
            have : rest.length ≤ g' := by simpa using hg
            omega
          rw [ih g' _ hlf hlg]
        · rw [if_neg hcond, if_neg hcond]
          have hlf : rest.length ≤ f' := by simpa using hf
          have hlg : rest.length ≤ g' := by simpa using hg
          rw [ih g' rest hlf hlg]

/-- C7.  For any maximal run `w` of whitespace beginning with a line break
(flanked by non-whitespace — `a` contains none, `b` does not start with any):
when the run contains more than `N` newlines, the limiter replaces the whole
run by exactly `N` newlines; when it contains at most `N`, the run is left
unchanged; in both cases the rest of the text is processed independently. -/
theorem C7_blank_line_collapse (N : Nat) (a w b : List Char)
    (ha : ∀ c ∈ a, pyIsSpace c = false)
    (hw : ∀ c ∈ w, pyIsSpace c = true)
    (hw1 : w.head? = some '\n')
    (hb : ∀ c, b.head? = some c → pyIsSpace c = false) :
    (N + 1 ≤ w.count '\n' →
      limit_blank_lines N (a ++ w ++ b) =
        a ++ List.replicate N '\n' ++ limit_blank_lines N b) ∧
    (w.count '\n' ≤ N →
      limit_blank_lines N (a ++ w ++ b) = a ++ w ++ limit_blank_lines N b) := by
  have hwne : w ≠ [] := by
    intro hh; subst hh; simp at hw1
  have hwlen : 1 ≤ w.length := by
    cases w with
    | nil => exact absurd rfl hwne
    | cons x t => simp
  constructor
  · intro hcount
    unfold limit_blank_lines
    rw [List.append_assoc]
    rw [show (a ++ (w ++ b)).length = a.length + (w ++ b).length from
      List.length_append a (w ++ b)]
    rw [limitAux_nonws N a (w ++ b) ((w ++ b).length) ha]
    rw [show (w ++ b).length = (w.length - 1 + b.length) + 1 from by
      rw [List.length_append]; omega]
    rw [limitAux_collapse N w b (w.length - 1 + b.length) hw hw1 hcount hb]
    rw [limitAux_irrel N (w.length - 1 + b.length) b.length b (by omega) le_rfl]
    simp [List.append_assoc]
  · intro hcount
    unfold limit_blank_lines
    rw [List.append_assoc]
    rw [show (a ++ (w ++ b)).length = a.length + (w ++ b).length from
      List.length_append a (w ++ b)]
    rw [limitAux_nonws N a (w ++ b) ((w ++ b).length) ha]
    rw [show (w ++ b).length = w.length + b.length from List.length_append w b]
    rw [limitAux_keep N w b b.length hw hcount hb]
    simp [List.append_assoc]

/-- Witness for C7 at `N = 3`: a run of six newlines collapses to exactly
three; a run of two newlines is left unchanged. -/
theorem C7_blank_line_collapse_witness :
    limit_blank_lines 3 (['x'] ++ List.replicate 6 '\n' ++ ['y']) =
      ['x'] ++ List.replicate 3 '\n' ++ limit_blank_lines 3 ['y'] ∧
    limit_blank_lines 3 (['x'] ++ List.replicate 2 '\n' ++ ['y']) =
      ['x'] ++ List.replicate 2 '\n' ++ limit_blank_lines 3 ['y'] := by
  constructor
  · exact (C7_blank_line_collapse 3 ['x'] (List.replicate 6 '\n') ['y']
      (by decide) (by decide) (by decide)
      (by intro c hc; cases hc; decide)).1 (by decide)
  · exact (C7_blank_line_collapse 3 ['x'] (List.replicate 2 '\n') ['y']
      (by decide) (by decide) (by decide)
      (by intro c hc; cases hc; decide)).2 (by decide)

/-! ## C10: termination of the wildcard rescan loop -/

theorem occAux_append :
    ∀ (xs ys : List Char) (p : Bool),
      occAux p (xs ++ ys) = occAux p xs + occAux (lastU p xs) ys := by
  intro xs
  induction xs with
  | nil => intro ys p; simp [occAux, lastU]
  | cons c rest ih =>
    intro ys p
    show (if (p && (c == '_')) = true then 1 else 0) + occAux (c == '_') (rest ++ ys) = _
    rw [ih ys (c == '_')]
    show _ = (if (p && (c == '_')) = true then 1 else 0) + occAux (c == '_') rest +
        occAux (lastU (c == '_') rest) ys
    omega

theorem occAux_false_le (b : Bool) (s : List Char) : occAux false s ≤ occAux b s := by
  cases s with
  | nil => exact Nat.le_refl 0
  | cons c t =>
    show 0 + occAux (c == '_') t ≤
      (if (b && (c == '_')) = true then 1 else 0) + occAux (c == '_') t
    split_ifs <;> omega

theorem occAux_le_one_add (b : Bool) (s : List Char) :
    occAux b s ≤ 1 + occAux false s := by
  cases s with
  | nil => exact Nat.le_add_right 0 1
  | cons c t =>
    show (if (b && (c == '_')) = true then 1 else 0) + occAux (c == '_') t ≤
      1 + (0 + occAux (c == '_') t)
    split_ifs <;> omega

theorem splitUU_some :
    ∀ (s pre rest : List Char), splitUU s = some (pre, rest) →
      s = pre ++ '_' :: '_' :: rest ∧ occAux false pre = 0 ∧ lastU false pre = false := by
  intro s
  induction s with
  | nil => intro pre rest h; simp [splitUU] at h
  | cons c t ih =>
    intro pre rest h
    cases t with
    | nil => simp [splitUU] at h
    | cons d t' =>
      rw [splitUU] at h
      by_cases hud : c = '_' ∧ d = '_'
      · rw [if_pos hud] at h
        obtain ⟨hpre, hrest⟩ : pre = [] ∧ rest = t' := by
          constructor <;> (injection h with h'; cases h'; rfl)
        subst hpre; subst hrest
        exact ⟨by rw [hud.1, hud.2]; rfl, rfl, rfl⟩
      · rw [if_neg hud] at h
        cases hsp : splitUU (d :: t') with
        | none => rw [hsp] at h; simp at h
        | some pr =>
          rw [hsp] at h
          have h2 : some ((c :: pr.1, pr.2)) = some ((pre, rest)) := h
          obtain ⟨hpre, hrest⟩ : pre = c :: pr.1 ∧ rest = pr.2 := by
            constructor <;> (injection h2 with h'; cases h'; rfl)
          subst hpre; subst hrest
          obtain ⟨heq, hocc, hlast⟩ := ih pr.1 pr.2 hsp
          have hhead : pr.1 = [] → c ≠ '_' := by
            intro hnil hc
            apply hud
            refine ⟨hc, ?_⟩
            rw [hnil] at heq
            simp only [List.nil_append, List.cons.injEq] at heq
            exact heq.1
          refine ⟨by rw [List.cons_append, ← heq], ?_, ?_⟩
          · show 0 + occAux (c == '_') pr.1 = 0
            suffices hzz : occAux (c == '_') pr.1 = 0 by omega
            by_cases hc : c = '_'
            · have hd : d ≠ '_' := fun hdd => hud ⟨hc, hdd⟩
              cases hp : pr.1 with
              | nil => rfl
              | cons x xs =>
                have hx : x = d := by
                  rw [hp] at heq
                  simp only [List.cons_append, List.cons.injEq] at heq
                  exact heq.1.symm
                have hxf : (x == '_') = false := by
                  rw [hx]
                  exact beq_eq_false_iff_ne.mpr hd
                have h0 : 0 + occAux (x == '_') xs = 0 := by
                  rw [hp] at hocc
                  exact hocc
                show (if ((c == '_') && (x == '_')) = true then 1 else 0) +
                    occAux (x == '_') xs = 0
                rw [hxf] at h0 ⊢
                simpa using h0
            · have hcf : (c == '_') = false := beq_eq_false_iff_ne.mpr hc
              rw [hcf]
              exact hocc
          · show lastU (c == '_') pr.1 = false
            cases hp : pr.1 with
            | nil =>
              have hcne : c ≠ '_' := hhead hp
              have hcf : (c == '_') = false := beq_eq_false_iff_ne.mpr hcne
              rw [hcf]
              rfl
            | cons x xs =>
              rw [hp] at hlast
              exact hlast

theorem occCount_getD_zero (opts : List (List Char)) (i : Nat)
    (h : ∀ l ∈ opts, occCount l = 0) : occCount (opts.getD i []) = 0 := by
  by_cases hi : i < opts.length
  · rw [List.getD_eq_getElem?_getD, List.getElem?_eq_getElem hi]
    exact h _ (List.getElem_mem hi)
  · rw [List.getD_eq_getElem?_getD, List.getElem?_eq_none (by omega)]
    rfl

theorem occ_concat_lt (pre name suf repl : List Char)
    (hpre0 : occAux false pre = 0) (hpreL : lastU false pre = false)
    (hname0 : occAux false name = 0) (hnameL : lastU false name = false)
    (hrepl : occAux false repl = 0) :
    occCount (pre ++ repl ++ suf) <
      occCount (pre ++ '_' :: '_' :: (name ++ '_' :: '_' :: suf)) := by
  have hA : occCount (pre ++ repl ++ suf) =
      occAux false pre + (occAux false repl + occAux (lastU false repl) suf) := by
    unfold occCount
    rw [List.append_assoc, occAux_append, hpreL, occAux_append]
  have hB : occCount (pre ++ '_' :: '_' :: (name ++ '_' :: '_' :: suf)) =
      occAux false pre +
        occAux false ('_' :: '_' :: (name ++ '_' :: '_' :: suf)) := by
    unfold occCount
    rw [occAux_append, hpreL]
  have h1 : occAux false ('_' :: '_' :: (name ++ '_' :: '_' :: suf)) =
      1 + occAux true (name ++ '_' :: '_' :: suf) := by
    show 0 + (1 + occAux true (name ++ '_' :: '_' :: suf)) = _
    omega
  have h2 : occAux false (name ++ '_' :: '_' :: suf) ≤
      occAux true (name ++ '_' :: '_' :: suf) := occAux_false_le _ _
  have h3 : occAux false (name ++ '_' :: '_' :: suf) =
      occAux false name + occAux false ('_' :: '_' :: suf) := by
    rw [occAux_append, hnameL]
  have h4 : occAux false ('_' :: '_' :: suf) = 1 + occAux true suf := by
    show 0 + (1 + occAux true suf) = _
    omega
  have h5 : occAux false suf ≤ occAux true suf := occAux_false_le _ _
  have h6 : occAux (lastU false repl) suf ≤ 1 + occAux false suf :=
    occAux_le_one_add _ _
  omega

theorem wildcard_step_occ_decrease (table : List Char → List (List Char))
    (rng : Rng) (kn : Nat) (s s' : List Char) (kn' : Nat)
    (hpre : ∀ nm l, l ∈ table nm → occCount l = 0)
    (hstep : wildcard_step table rng kn s = some (s', kn')) :
    occCount s' < occCount s := by
  unfold wildcard_step at hstep
  cases h1 : splitUU s with
  | none => rw [h1] at hstep; simp at hstep
  | some p1 =>
    obtain ⟨pre, rest⟩ := p1
    rw [h1] at hstep
    dsimp only at hstep
    cases h2 : splitUU rest with
    | none => rw [h2] at hstep; simp at hstep
    | some p2 =>
      obtain ⟨name, suf⟩ := p2
      rw [h2] at hstep
      dsimp only at hstep
      obtain ⟨hs, hpre0, hpreL⟩ := splitUU_some s pre rest h1
      obtain ⟨hr, hname0, hnameL⟩ := splitUU_some rest name suf h2
      subst hs; subst hr
      by_cases he : (table name).isEmpty
      · rw [if_pos he] at hstep
        injection hstep with hp
        injection hp with hp1 hp2
        rw [← hp1]
        exact occ_concat_lt pre name suf name hpre0 hpreL hname0 hnameL hname0
      · rw [if_neg he] at hstep
        injection hstep with hp
        injection hp with hp1 hp2
        rw [← hp1]
        exact occ_concat_lt pre name suf _ hpre0 hpreL hname0 hnameL
          (occCount_getD_zero _ _ (hpre name))

theorem process_wildcards_terminates (table : List Char → List (List Char))
    (rng : Rng) (hpre : ∀ nm l, l ∈ table nm → occCount l = 0) :
    ∀ (f kn : Nat) (s : List Char), occCount s < f →
      ∃ r, process_wildcards table rng f kn s = some r := by
  intro f
  induction f with
  | zero => intro kn s h; omega
  | succ f' ih =>
    intro kn s h
    cases hstep : wildcard_step table rng kn s with
    | none => exact ⟨(s, kn), by simp [process_wildcards, hstep]⟩
    | some p =>
      obtain ⟨s', kn'⟩ := p
      have hdec := wildcard_step_occ_decrease table rng kn s s' kn' hpre hstep
      obtain ⟨r, hr⟩ := ih kn' s' (by omega)
      exact ⟨r, by simp [process_wildcards, hstep, hr]⟩

theorem process_wildcards_loop (rng : Rng) : ∀ (fuel kn : Nat),
    process_wildcards tblLoop rng fuel kn ['_', '_', 'w', '_', '_'] = none := by
  intro fuel
  induction fuel with
  | zero => intro kn; rfl
  | succ f ih =>
    intro kn
    have hstep : wildcard_step tblLoop rng kn ['_', '_', 'w', '_', '_'] =
        some (['_', '_', 'w', '_', '_'], kn + 1) := by
      have s1 : splitUU ['_', '_', 'w', '_', '_'] = some ([], ['w', '_', '_']) := rfl
      have s2 : splitUU ['w', '_', '_'] = some (['w'], []) := rfl
      simp [wildcard_step, s1, s2, tblLoop, Nat.mod_one, List.getD]
    simp [process_wildcards, hstep, ih]

/-- C10 (counterexample).  The claim says that under the precondition each
substitution strictly decreases the number of unresolved `__name__` marker
pairs.  One substitution step on `__w_____a__b__c` with the word list
`w ↦ ["q_"]` (a list satisfying the precondition) yields `q____a__b__c`,
and the greedily paired marker count is `2` both before and after: the pair
count does not strictly decrease. -/
theorem C10_counterexample :
    wildcard_step tblW rngZero 0 tplPairA = some (tplPairB, 1) ∧
    pairCount tplPairA = 2 ∧ pairCount tplPairB = 2 := by
  exact ⟨rfl, rfl, rfl⟩

/-- C10 (amended).  Under the precondition that no word-list line contains
`"__"`: each substitution strictly decreases the number of occurrences of the
two-character marker `"__"` (counted at every index), so the rescan loop
terminates — fuel exceeding the occurrence count suffices; moreover the loop
stops whenever the first `"__"` has no closing `"__"`.  (The greedy
`__name__` *pair* count need not strictly decrease, see the counterexample.)
Without the precondition the loop need not terminate: with the word list
`w ↦ ["__w__"]`, processing `__w__` runs forever (every fuel is exhausted). -/
theorem C10_termination_amended :
    (∀ (table : List Char → List (List Char)) (rng : Rng) (kn : Nat)
       (s s' : List Char) (kn' : Nat),
      (∀ nm l, l ∈ table nm → occCount l = 0) →
      wildcard_step table rng kn s = some (s', kn') →
      occCount s' < occCount s) ∧
    (∀ (table : List Char → List (List Char)) (rng : Rng),
      (∀ nm l, l ∈ table nm → occCount l = 0) →
      ∀ (f kn : Nat) (s : List Char), occCount s < f →
        ∃ r, process_wildcards table rng f kn s = some r) ∧
    (∀ (table : List Char → List (List Char)) (rng : Rng) (kn : Nat)
       (s pre rest : List Char),
      splitUU s = some (pre, rest) → splitUU rest = none →
      wildcard_step table rng kn s = none) ∧
    (∀ (rng : Rng) (fuel kn : Nat),
      process_wildcards tblLoop rng fuel kn ['_', '_', 'w', '_', '_'] = none) := by
  refine ⟨?_, ?_, ?_, ?_⟩
  · intro table rng kn s s' kn' hpre hstep
    exact wildcard_step_occ_decrease table rng kn s s' kn' hpre hstep
  · intro table rng hpre f kn s h
    exact process_wildcards_terminates table rng hpre f kn s h
  · intro table rng kn s pre rest h1 h2
    simp [wildcard_step, h1, h2]
  · intro rng fuel kn
    exact process_wildcards_loop rng fuel kn

/-- Witness for C10 (amended): the table `w ↦ ["q_"]` satisfies the
precondition; one step on `__w_____a__b__c` decreases the `"__"` occurrence
count, the loop terminates on that input with fuel `8 > 7` occurrences, it
stops on the unmatched-opening input `__w`, and the looping table diverges. -/
theorem C10_termination_amended_witness :
    occCount tplPairB < occCount tplPairA ∧
    (∃ r, process_wildcards tblW rngZero 8 0 tplPairA = some r) ∧
    wildcard_step tblEmpty rngZero 0 ['_', '_', 'w'] = none ∧
    process_wildcards tblLoop rngZero 7 0 ['_', '_', 'w', '_', '_'] = none := by
  have hpre : ∀ nm l, l ∈ tblW nm → occCount l = 0 := by
    intro nm l hl
    unfold tblW at hl
    split at hl
    · simp at hl; subst hl; rfl
    · simp at hl
  refine ⟨?_, ?_, ?_, ?_⟩
  · exact C10_termination_amended.1 tblW rngZero 0 tplPairA tplPairB 1 hpre rfl
  · exact C10_termination_amended.2.1 tblW rngZero hpre 8 0 tplPairA (by decide)
  · exact C10_termination_amended.2.2.1 tblEmpty rngZero 0 ['_', '_', 'w'] [] ['w'] rfl rfl
  · exact C10_termination_amended.2.2.2 rngZero 7 0

/-! ## C3: weight parsing and weighted selection -/

theorem digit_not_space (c : Char) (h : Char.isDigit c = true) : pyIsSpace c = false := by
  cases hsp : pyIsSpace c
  · rfl
  · exfalso
    simp only [pyIsSpace, Bool.or_eq_true, decide_eq_true_eq] at hsp
    rcases hsp with (((((h1 | h1) | h1) | h1) | h1) | h1) <;>
      (subst h1; exact absurd h (by decide))

theorem weightMatch_decomp_nofrac (ws ds r : List Char)
    (hws : ∀ c ∈ ws, pyIsSpace c = true) (hds : ds ≠ [])
    (hdig : ∀ c ∈ ds, Char.isDigit c = true) (hr : '\n' ∉ r) :
    weightMatch (ws ++ ds ++ ':' :: ':' :: r) = some (qOfDigits ds [], r) := by
  have hb : ∀ c, (ds ++ ':' :: ':' :: r).head? = some c → pyIsSpace c = false := by
    intro c hc
    cases ds with
    | nil => exact absurd rfl hds
    | cons d0 dt =>
      simp only [List.cons_append, List.head?_cons, Option.some.injEq] at hc
      subst hc
      exact digit_not_space d0 (hdig d0 (List.mem_cons_self d0 dt))
  have hcolon : ∀ c, (':' :: ':' :: r).head? = some c → Char.isDigit c = false := by
    intro c hc
    simp only [List.head?_cons, Option.some.injEq] at hc
    subst hc
    rfl
  have h1 := (takeWhile_append_all pyIsSpace ws (ds ++ ':' :: ':' :: r) hws hb).2
  have h2 := takeWhile_append_all Char.isDigit ds (':' :: ':' :: r) hdig hcolon
  have hne : ds.isEmpty = false := by
    cases ds with
    | nil => exact absurd rfl hds
    | cons x t => rfl
  have hfrac : ¬((':' :: ':' :: r).head? = some '.' ∧
      ((':' :: ':' :: r).tail.takeWhile Char.isDigit) ≠ []) := by
    intro ⟨hh, _⟩
    simp at hh
  simp only [weightMatch, List.append_assoc, h1, h2.1, h2.2, hne,
    Bool.false_eq_true, if_false, if_neg hfrac]
  simp only [List.head?_cons, List.tail_cons, Option.some.injEq, and_true, if_neg hr,
    if_pos (And.intro rfl rfl), if_true]

theorem weightMatch_decomp_frac (ws ds fds r : List Char)
    (hws : ∀ c ∈ ws, pyIsSpace c = true) (hds : ds ≠ [])
    (hdig : ∀ c ∈ ds, Char.isDigit c = true) (hfds : fds ≠ [])
    (hfdig : ∀ c ∈ fds, Char.isDigit c = true) (hr : '\n' ∉ r) :
    weightMatch (ws ++ ds ++ '.' :: fds ++ ':' :: ':' :: r) =
      some (qOfDigits ds fds, r) := by
  have hb : ∀ c, (ds ++ '.' :: fds ++ ':' :: ':' :: r).head? = some c →
      pyIsSpace c = false := by
    intro c hc
    cases ds with
    | nil => exact absurd rfl hds
    | cons d0 dt =>
      simp only [List.cons_append, List.head?_cons, Option.some.injEq] at hc
      subst hc
      exact digit_not_space d0 (hdig d0 (List.mem_cons_self d0 dt))
  have hdot : ∀ c, ('.' :: (fds ++ ':' :: ':' :: r)).head? = some c →
      Char.isDigit c = false := by
    intro c hc
    simp only [List.head?_cons, Option.some.injEq] at hc
    subst hc
    rfl
  have hcolon : ∀ c, (':' :: ':' :: r).head? = some c → Char.isDigit c = false := by
    intro c hc
    simp only [List.head?_cons, Option.some.injEq] at hc
    subst hc
    rfl
  have h1 := (takeWhile_append_all pyIsSpace ws
    (ds ++ '.' :: (fds ++ ':' :: ':' :: r)) hws (by
      intro c hc
      exact hb c (by simpa using hc))).2
  have h2 := takeWhile_append_all Char.isDigit ds
    ('.' :: (fds ++ ':' :: ':' :: r)) hdig hdot
  have h3 := takeWhile_append_all Char.isDigit fds (':' :: ':' :: r) hfdig hcolon
  have hne : ds.isEmpty = false := by
    cases ds with
    | nil => exact absurd rfl hds
    | cons x t => rfl
  have hfrac : ('.' :: (fds ++ ':' :: ':' :: r)).head? = some '.' ∧
      (('.' :: (fds ++ ':' :: ':' :: r)).tail.takeWhile Char.isDigit) ≠ [] := by
    refine ⟨rfl, ?_⟩
    simp only [List.tail_cons, h3.1]
    exact hfds
  have happ : ws ++ ds ++ '.' :: fds ++ ':' :: ':' :: r =
      ws ++ (ds ++ '.' :: (fds ++ ':' :: ':' :: r)) := by simp
  simp only [weightMatch, happ, h1, h2.1, h2.2, hne, Bool.false_eq_true, if_false,
    if_pos hfrac]
  simp only [List.tail_cons, h3.1, h3.2]
  simp only [List.head?_cons, List.tail_cons, Option.some.injEq, and_true, if_neg hr,
    if_pos (And.intro rfl rfl), if_true]

theorem qOfDigits_nonneg (ds fs : List Char) : 0 ≤ qOfDigits ds fs := by
  unfold qOfDigits
  positivity

set_option linter.unreachableTactic false in
set_option linter.unusedTactic false in
theorem weightMatch_nonneg (c : List Char) (w : ℚ) (rest : List Char)
    (h : weightMatch c = some (w, rest)) : 0 ≤ w := by
  unfold weightMatch at h
  simp only at h
  split_ifs at h with h1 h2 h3 h4 h5
  all_goals first
    | (injection h with h'
       injection h' with ha hb
       rw [← ha]
       exact qOfDigits_nonneg _ _)
    | injection h

theorem parseWeightedAlt_nonneg (c : List Char) : 0 ≤ (parseWeightedAlt c).1 := by
  unfold parseWeightedAlt
  cases h : weightMatch c with
  | none => norm_num
  | some p =>
    obtain ⟨w, rest⟩ := p
    simpa using weightMatch_nonneg c w rest h

theorem cumsum_length (qs : List ℚ) : (cumsum qs).length = qs.length := by
  simp [cumsum]

theorem cumsum_getD (qs : List ℚ) (j : Nat) (hj : j < qs.length) :
    (cumsum qs).getD j 0 = ((qs.take (j + 1)).sum) := by
  unfold cumsum
  rw [List.getD_eq_getElem?_getD, List.getElem?_map]
  rw [List.getElem?_range hj]
  rfl

theorem getD_nonneg (qs : List ℚ) (i : Nat) (hnn : ∀ x ∈ qs, 0 ≤ x) :
    0 ≤ qs.getD i 0 := by
  by_cases hi : i < qs.length
  · rw [List.getD_eq_getElem?_getD, List.getElem?_eq_getElem hi]
    exact hnn _ (List.getElem_mem hi)
  · rw [List.getD_eq_getElem?_getD, List.getElem?_eq_none (by omega)]
    exact le_rfl

theorem sum_take_succ_getD (qs : List ℚ) (i : Nat) (hi : i < qs.length) :
    (qs.take (i + 1)).sum = (qs.take i).sum + qs.getD i 0 := by
  rw [List.getD_eq_getElem?_getD, List.getElem?_eq_getElem hi]
  rw [List.sum_take_succ qs i hi]
  rfl

theorem sum_take_mono (qs : List ℚ) (hnn : ∀ x ∈ qs, 0 ≤ x) :
    ∀ i j : Nat, i ≤ j → (qs.take i).sum ≤ (qs.take j).sum := by
  intro i j hij
  induction j with
  | zero =>
    have : i = 0 := by omega
    subst this
    exact le_rfl
  | succ j' ih =>
    by_cases hji : i = j' + 1
    · subst hji; exact le_rfl
    · have hij' : i ≤ j' := by omega
      refine le_trans (ih hij') ?_
      by_cases hj : j' < qs.length
      · rw [sum_take_succ_getD qs j' hj]
        have := getD_nonneg qs j' hnn
        linarith
      · rw [List.take_of_length_le (by omega), List.take_of_length_le (by omega)]

theorem bisectAux_char (a : List ℚ) (x : ℚ)
    (hmono : ∀ i j : Nat, i ≤ j → j < a.length → a.getD i 0 ≤ a.getD j 0) :
    ∀ (d lo hi : Nat), hi - lo ≤ d → lo ≤ hi → hi < a.length →
      (∀ j, j < lo → a.getD j 0 ≤ x) → x < a.getD hi 0 →
      lo ≤ bisectAux d a x lo hi ∧ bisectAux d a x lo hi ≤ hi ∧
        (∀ j, j < bisectAux d a x lo hi → a.getD j 0 ≤ x) ∧
        x < a.getD (bisectAux d a x lo hi) 0 := by
  intro d
  induction d with
  | zero =>
    intro lo hi hd hlohi hhi hlow hx
    have : lo = hi := by omega
    subst this
    exact ⟨le_rfl, le_rfl, hlow, hx⟩
  | succ d' ih =>
    intro lo hi hd hlohi hhi hlow hx
    have hunf : bisectAux (d' + 1) a x lo hi =
        if lo < hi then
          if x < a.getD ((lo + hi) / 2) 0 then bisectAux d' a x lo ((lo + hi) / 2)
          else bisectAux d' a x ((lo + hi) / 2 + 1) hi
        else lo := rfl
    rw [hunf]
    by_cases hlt : lo < hi
    · rw [if_pos hlt]
      have hmlo : lo ≤ (lo + hi) / 2 := by omega
      have hmhi : (lo + hi) / 2 < hi := by omega
      by_cases hxm : x < a.getD ((lo + hi) / 2) 0
      · rw [if_pos hxm]
        obtain ⟨r1, r2, r3, r4⟩ := ih lo ((lo + hi) / 2) (by omega) hmlo (by omega) hlow hxm
        exact ⟨r1, by omega, r3, r4⟩
      · rw [if_neg hxm]
        have hxm' : a.getD ((lo + hi) / 2) 0 ≤ x := le_of_not_lt hxm
        have hlow' : ∀ j, j < (lo + hi) / 2 + 1 → a.getD j 0 ≤ x := by
          intro j hj
          by_cases hjlo : j < lo
          · exact hlow j hjlo
          · exact le_trans (hmono j ((lo + hi) / 2) (by omega) (by omega)) hxm'
        obtain ⟨r1, r2, r3, r4⟩ := ih ((lo + hi) / 2 + 1) hi (by omega) (by omega) hhi hlow' hx
        exact ⟨by omega, r2, r3, r4⟩
    · rw [if_neg hlt]
      have : lo = hi := by omega
      subst this
      exact ⟨le_rfl, le_rfl, hlow, hx⟩

theorem altWeights_nonneg (cs : List (List Char)) :
    ∀ x ∈ altWeights cs, 0 ≤ x := by
  intro x hx
  simp only [altWeights, List.mem_map] at hx
  obtain ⟨c, _, hc⟩ := hx
  rw [← hc]
  exact parseWeightedAlt_nonneg c

theorem cumsum_getD_weights (cs : List (List Char)) (j : Nat) (hj : j < cs.length) :
    (cumsum (altWeights cs)).getD j 0 = (((altWeights cs).take (j + 1)).sum) := by
  apply cumsum_getD
  simpa [altWeights] using hj

theorem selIdx_char (cs : List (List Char)) (u : ℚ) (hne : cs ≠ [])
    (htot : 0 < altTotal cs) (hu0 : 0 ≤ u) (hu1 : u < 1) :
    (get_weighted_choice cs u = .ok ((altTexts cs).getD (selIdx cs u) [])) ∧
    (∀ j, j < selIdx cs u → (cumsum (altWeights cs)).getD j 0 ≤ u * altTotal cs) ∧
    (u * altTotal cs < (cumsum (altWeights cs)).getD (selIdx cs u) 0) ∧
    selIdx cs u ≤ cs.length - 1 := by
  have hlen : (altWeights cs).length = cs.length := by simp [altWeights]
  have hn1 : 1 ≤ cs.length := List.length_pos.mpr hne
  have hnn := altWeights_nonneg cs
  have hmono : ∀ i j : Nat, i ≤ j → j < (cumsum (altWeights cs)).length →
      (cumsum (altWeights cs)).getD i 0 ≤ (cumsum (altWeights cs)).getD j 0 := by
    intro i j hij hj
    rw [cumsum_length, hlen] at hj
    rw [cumsum_getD_weights cs i (by omega), cumsum_getD_weights cs j hj]
    exact sum_take_mono (altWeights cs) hnn (i + 1) (j + 1) (by omega)
  have hx0 : 0 ≤ u * altTotal cs := mul_nonneg hu0 (le_of_lt htot)
  have hxlt : u * altTotal cs < altTotal cs := by
    have := mul_lt_mul_of_pos_right hu1 htot
    simpa using this
  have hcumhi : (cumsum (altWeights cs)).getD (cs.length - 1) 0 = altTotal cs := by
    rw [cumsum_getD_weights cs (cs.length - 1) (by omega)]
    rw [show cs.length - 1 + 1 = cs.length from by omega]
    rw [← hlen, List.take_length]
    rfl
  have hchar := bisectAux_char (cumsum (altWeights cs)) (u * altTotal cs) hmono
    (cs.length - 1 - 0) 0 (cs.length - 1) le_rfl (by omega)
    (by rw [cumsum_length, hlen]; omega)
    (by intro j hj; exact absurd hj (Nat.not_lt_zero j))
    (by rw [hcumhi]; exact hxlt)
  have hself : selIdx cs u = bisectAux (cs.length - 1 - 0) (cumsum (altWeights cs))
      (u * altTotal cs) 0 (cs.length - 1) := rfl
  refine ⟨?_, ?_, ?_, ?_⟩
  · unfold get_weighted_choice
    have hT : (cs.map parseWeightedAlt).map Prod.snd = altTexts cs := by
      rw [List.map_map]; rfl
    have hW : (cs.map parseWeightedAlt).map Prod.fst = altWeights cs := by
      rw [List.map_map]; rfl
    have hgd : (cumsum (altWeights cs)).getD ((cumsum (altWeights cs)).length - 1) 0 =
        altTotal cs := by
      rw [cumsum_length, hlen]
      exact hcumhi
    have hlast : (cumsum (altWeights cs)).getLast? = some (altTotal cs) := by
      rw [List.getLast?_eq_getElem?]
      have hlt : (cumsum (altWeights cs)).length - 1 < (cumsum (altWeights cs)).length := by
        rw [cumsum_length, hlen]; omega
      rw [List.getElem?_eq_getElem hlt]
      have : (cumsum (altWeights cs)).getD ((cumsum (altWeights cs)).length - 1) 0 =
          (cumsum (altWeights cs))[(cumsum (altWeights cs)).length - 1] := by
        rw [List.getD_eq_getElem?_getD, List.getElem?_eq_getElem hlt]
        rfl
      rw [← this, hgd]
    have hTlen : (altTexts cs).length = cs.length := by simp [altTexts]
    simp only [hT, hW, hlast]
    rw [if_neg (not_le.mpr htot)]
    rw [hTlen]
    rfl
  · rw [hself]
    exact hchar.2.2.1
  · rw [hself]
    exact hchar.2.2.2
  · rw [hself]
    exact hchar.2.1

theorem selIdx_interval (cs : List (List Char)) (u : ℚ) (hne : cs ≠ [])
    (htot : 0 < altTotal cs) (hu0 : 0 ≤ u) (hu1 : u < 1) (i : Nat)
    (hi : i < cs.length) :
    selIdx cs u = i ↔
      ((altWeights cs).take i).sum ≤ u * altTotal cs ∧
        u * altTotal cs < ((altWeights cs).take i).sum + (altWeights cs).getD i 0 := by
  obtain ⟨_, hlow, hhigh, hle⟩ := selIdx_char cs u hne htot hu0 hu1
  have hlen : (altWeights cs).length = cs.length := by simp [altWeights]
  have hn1 : 1 ≤ cs.length := List.length_pos.mpr hne
  have hnn := altWeights_nonneg cs
  have hx0 : 0 ≤ u * altTotal cs := mul_nonneg hu0 (le_of_lt htot)
  have hsellt : selIdx cs u < cs.length := by omega
  constructor
  · intro heq
    subst heq
    constructor
    · rcases Nat.eq_zero_or_pos (selIdx cs u) with h0 | hpos
      · rw [h0]
        simpa using hx0
      · have hj := hlow (selIdx cs u - 1) (by omega)
        rw [cumsum_getD_weights cs _ (by omega)] at hj
        rw [show selIdx cs u - 1 + 1 = selIdx cs u from by omega] at hj
        exact hj
    · have hj := hhigh
      rw [cumsum_getD_weights cs _ hsellt] at hj
      rw [sum_take_succ_getD _ _ (by omega)] at hj
      exact hj
  · intro ⟨hge, hlt⟩
    by_contra hneq
    rcases Nat.lt_or_ge (selIdx cs u) i with hlt2 | hge2
    · have h1 := hhigh
      rw [cumsum_getD_weights cs _ hsellt] at h1
      have h2 : ((altWeights cs).take (selIdx cs u + 1)).sum ≤
          ((altWeights cs).take i).sum :=
        sum_take_mono _ hnn _ _ (by omega)
      linarith
    · have hgt : i < selIdx cs u := by omega
      have h1 := hlow i hgt
      rw [cumsum_getD_weights cs i hi] at h1
      rw [sum_take_succ_getD _ _ (by omega)] at h1
      linarith

theorem selIdx_zero_weight (cs : List (List Char)) (u : ℚ) (hne : cs ≠ [])
    (htot : 0 < altTotal cs) (hu0 : 0 ≤ u) (hu1 : u < 1) (i : Nat)
    (hi : i < cs.length) (hw : (altWeights cs).getD i 0 = 0) :
    selIdx cs u ≠ i := by
  intro heq
  obtain ⟨h1, h2⟩ := (selIdx_interval cs u hne htot hu0 hu1 i hi).mp heq
  rw [hw] at h2
  linarith

/-- C3 (amended).  The weight regex starts with `\s*`, so an alternative may
carry leading whitespace before the digits; the suffix `(.*)$` cannot cross a
newline, so the remainder must be newline-free (up to one final newline, not
covered here).  On such a match the weight is the (exactly represented)
decimal value and the text is the remainder stripped; otherwise the weight is
`1.0` and the text is the whole alternative stripped.  Parsed weights are
never negative.  For a block with positive total weight and a draw
`u ∈ [0,1)`, the selection returns the text at index `selIdx`, and
`selIdx = i` exactly when `u·total` falls in the half-open interval of length
`wᵢ` starting at `w₀+…+wᵢ₋₁` — selection probability proportional to weight —
so a zero-weight alternative is never selected.  (A block whose total weight
is not positive raises `ValueError` instead, see C5.) -/
theorem C3_weighted_selector :
    (∀ ws ds r : List Char, (∀ c ∈ ws, pyIsSpace c = true) → ds ≠ [] →
      (∀ c ∈ ds, Char.isDigit c = true) → '\n' ∉ r →
      parseWeightedAlt (ws ++ ds ++ ':' :: ':' :: r) = (qOfDigits ds [], pyStrip r)) ∧
    (∀ ws ds fds r : List Char, (∀ c ∈ ws, pyIsSpace c = true) → ds ≠ [] →
      (∀ c ∈ ds, Char.isDigit c = true) → fds ≠ [] →
      (∀ c ∈ fds, Char.isDigit c = true) → '\n' ∉ r →
      parseWeightedAlt (ws ++ ds ++ '.' :: fds ++ ':' :: ':' :: r) =
        (qOfDigits ds fds, pyStrip r)) ∧
    (∀ c : List Char, weightMatch c = none → parseWeightedAlt c = (1, pyStrip c)) ∧
    (∀ c : List Char, 0 ≤ (parseWeightedAlt c).1) ∧
    (∀ (cs : List (List Char)) (u : ℚ) (i : Nat), cs ≠ [] → 0 < altTotal cs →
      0 ≤ u → u < 1 → i < cs.length →
      get_weighted_choice cs u = .ok ((altTexts cs).getD (selIdx cs u) []) ∧
      (selIdx cs u = i ↔
        ((altWeights cs).take i).sum ≤ u * altTotal cs ∧
          u * altTotal cs < ((altWeights cs).take i).sum + (altWeights cs).getD i 0) ∧
      ((altWeights cs).getD i 0 = 0 → selIdx cs u ≠ i)) := by
  refine ⟨?_, ?_, ?_, ?_, ?_⟩
  · intro ws ds r h1 h2 h3 h4
    unfold parseWeightedAlt
    rw [weightMatch_decomp_nofrac ws ds r h1 h2 h3 h4]
  · intro ws ds fds r h1 h2 h3 h4 h5 h6
    unfold parseWeightedAlt
    rw [weightMatch_decomp_frac ws ds fds r h1 h2 h3 h4 h5 h6]
  · intro c h
    unfold parseWeightedAlt
    rw [h]
  · exact parseWeightedAlt_nonneg
  · intro cs u i hne htot hu0 hu1 hi
    exact ⟨(selIdx_char cs u hne htot hu0 hu1).1,
      selIdx_interval cs u hne htot hu0 hu1 i hi,
      selIdx_zero_weight cs u hne htot hu0 hu1 i hi⟩

/-- C3 (counterexample).  The claim describes the prefix pattern as starting
directly with digits and the remainder as the rest of the alternative, so on
`" 2::a"` (leading space) it predicts the no-match branch: weight `1.0` with
text `"2::a"` (the whole, trimmed).  The source regex starts with `\s*`, so
the code parses weight `2` with text `"a"`. -/
theorem C3_counterexample :
    parseWeightedAlt ((" 2::a").toList) = (2, ['a']) ∧
    parseWeightedAltClaimed ((" 2::a").toList) = (1, ("2::a").toList) ∧
    parseWeightedAlt ((" 2::a").toList) ≠ parseWeightedAltClaimed ((" 2::a").toList) := by
  have hq : qOfDigits ['2'] [] = 2 := by
    have h2 : natOfDigits ['2'] = 2 := rfl
    have h0 : natOfDigits [] = 0 := rfl
    norm_num [qOfDigits, h2, h0]
  have h1 : parseWeightedAlt ((" 2::a").toList) = (qOfDigits ['2'] [], ['a']) := rfl
  have h2 : parseWeightedAltClaimed ((" 2::a").toList) = (1, ("2::a").toList) := rfl
  refine ⟨by rw [h1, hq], h2, ?_⟩
  rw [h1, hq, h2]
  intro hcontra
  injection hcontra with ha hb
  exact absurd ha (by norm_num)

/-- Witness for C3 at concrete inputs: ` 5::sunny` parses to weight 5 with
text `sunny`; `2.5::x` parses to weight 2.5 with text `x`; `b` gets default
weight 1; for the block `{5::sunny|2::cloudy|1::rainy}` with draw `u = 1/2`
the selection is well-defined, and index 0 (`sunny`) is selected exactly when
`u·8` lies in `[0, 5)`. -/
theorem C3_weighted_selector_witness :
    parseWeightedAlt ([' '] ++ ['5'] ++ ':' :: ':' :: ['s', 'u', 'n', 'n', 'y']) =
      (qOfDigits ['5'] [], pyStrip ['s', 'u', 'n', 'n', 'y']) ∧
    parseWeightedAlt ([] ++ ['2'] ++ '.' :: ['5'] ++ ':' :: ':' :: ['x']) =
      (qOfDigits ['2'] ['5'], pyStrip ['x']) ∧
    parseWeightedAlt ['b'] = (1, pyStrip ['b']) ∧
    0 ≤ (parseWeightedAlt ['b']).1 ∧
    (get_weighted_choice weightedAlts ((1 : ℚ)/2) =
      .ok ((altTexts weightedAlts).getD (selIdx weightedAlts ((1 : ℚ)/2)) []) ∧
     (selIdx weightedAlts ((1 : ℚ)/2) = 0 ↔
       ((altWeights weightedAlts).take 0).sum ≤ (1 : ℚ)/2 * altTotal weightedAlts ∧
         (1 : ℚ)/2 * altTotal weightedAlts <
           ((altWeights weightedAlts).take 0).sum +
             (altWeights weightedAlts).getD 0 0) ∧
     ((altWeights weightedAlts).getD 0 0 = 0 →
       selIdx weightedAlts ((1 : ℚ)/2) ≠ 0)) := by
  have htot : altTotal weightedAlts = 8 := by
    have e5 : parseWeightedAlt ['5', ':', ':', 's', 'u', 'n', 'n', 'y'] =
        (qOfDigits ['5'] [], ['s', 'u', 'n', 'n', 'y']) := rfl
    have e2 : parseWeightedAlt ['2', ':', ':', 'c', 'l', 'o', 'u', 'd', 'y'] =
        (qOfDigits ['2'] [], ['c', 'l', 'o', 'u', 'd', 'y']) := rfl
    have e1 : parseWeightedAlt ['1', ':', ':', 'r', 'a', 'i', 'n', 'y'] =
        (qOfDigits ['1'] [], ['r', 'a', 'i', 'n', 'y']) := rfl
    have n5 : natOfDigits ['5'] = 5 := rfl
    have n2 : natOfDigits ['2'] = 2 := rfl
    have n1 : natOfDigits ['1'] = 1 := rfl
    have n0 : natOfDigits [] = 0 := rfl
    norm_num [altTotal, altWeights, weightedAlts, e5, e2, e1, qOfDigits, n5, n2, n1, n0]
  refine ⟨?_, ?_, ?_, ?_, ?_⟩
  · exact C3_weighted_selector.1 [' '] ['5'] ['s', 'u', 'n', 'n', 'y']
      (by decide) (by decide) (by decide) (by decide)
  · exact C3_weighted_selector.2.1 [] ['2'] ['5'] ['x']
      (by decide) (by decide) (by decide) (by decide) (by decide) (by decide)
  · exact C3_weighted_selector.2.2.1 ['b'] rfl
  · exact C3_weighted_selector.2.2.2.1 ['b']
  · exact C3_weighted_selector.2.2.2.2 weightedAlts ((1 : ℚ)/2) 0
      (by decide) (by rw [htot]; norm_num) (by norm_num) (by norm_num) (by decide)

/-! ## C1: nested choice blocks resolve fully -/

theorem gwc_two (x y : List Char) (u : ℚ)
    (hx : parseWeightedAlt x = (1, x)) (hy : parseWeightedAlt y = (1, y)) :
    get_weighted_choice [x, y] u = .ok x ∨ get_weighted_choice [x, y] u = .ok y := by
  by_cases h : u * 2 < 1
  · left
    norm_num [get_weighted_choice, hx, hy, cumsum, List.range_succ, bisect,
      bisectAux, List.getD, h]
  · right
    norm_num [get_weighted_choice, hx, hy, cumsum, List.range_succ, bisect,
      bisectAux, List.getD, h]

theorem space_not_brace (c : Char) (h : pyIsSpace c = true) : c ≠ '{' ∧ c ≠ '}' := by
  simp only [pyIsSpace, Bool.or_eq_true, decide_eq_true_eq] at h
  rcases h with (((((h1 | h1) | h1) | h1) | h1) | h1) <;>
    (subst h1; exact ⟨by decide, by decide⟩)

theorem braceBal_ws_cons (c : Char) (h : pyIsSpace c = true) (rest : List Char)
    (lvl : Nat) : braceBal (c :: rest) lvl = braceBal rest lvl := by
  obtain ⟨h1, h2⟩ := space_not_brace c h
  simp [braceBal, h1, h2]

theorem braceBal_dropWhile_ws :
    ∀ (s : List Char) (lvl : Nat),
      braceBal (s.dropWhile pyIsSpace) lvl = braceBal s lvl := by
  intro s
  induction s with
  | nil => intro lvl; rfl
  | cons c rest ih =>
    intro lvl
    cases hc : pyIsSpace c with
    | true =>
      rw [List.dropWhile_cons_of_pos hc, ih, braceBal_ws_cons c hc]
    | false =>
      rw [List.dropWhile_cons_of_neg (by simp [hc])]

theorem braceBal_allws :
    ∀ (w : List Char), (∀ c ∈ w, pyIsSpace c = true) →
      ∀ lvl : Nat, braceBal w lvl = (lvl == 0) := by
  intro w
  induction w with
  | nil => intro _ lvl; rfl
  | cons c t ih =>
    intro hw lvl
    rw [braceBal_ws_cons c (hw c (List.mem_cons_self c t))]
    exact ih (fun d hd => hw d (List.mem_cons_of_mem c hd)) lvl

theorem braceBal_append_ws :
    ∀ (s w : List Char), (∀ c ∈ w, pyIsSpace c = true) →
      ∀ lvl : Nat, braceBal (s ++ w) lvl = braceBal s lvl := by
  intro s
  induction s with
  | nil =>
    intro w hw lvl
    simp only [List.nil_append]
    rw [braceBal_allws w hw lvl]
    rfl
  | cons c rest ih =>
    intro w hw lvl
    by_cases h1 : c = '{'
    · subst h1
      simp only [List.cons_append]
      simp [braceBal, ih w hw]
    · by_cases h2 : c = '}'
      · subst h2
        simp only [List.cons_append]
        simp [braceBal, ih w hw]
      · simp only [List.cons_append]
        simp [braceBal, h1, h2, ih w hw]

theorem pyStrip_decomp (s : List Char) :
    ∃ w, (∀ c ∈ w, pyIsSpace c = true) ∧
      s.dropWhile pyIsSpace = pyStrip s ++ w := by
  refine ⟨((s.dropWhile pyIsSpace).reverse.takeWhile pyIsSpace).reverse, ?_, ?_⟩
  · intro c hc
    rw [List.mem_reverse] at hc
    exact List.mem_takeWhile_imp hc
  · symm
    unfold pyStrip
    rw [← List.reverse_append, List.takeWhile_append_dropWhile, List.reverse_reverse]

theorem pyStrip_braceBal (s : List Char) (lvl : Nat) :
    braceBal (pyStrip s) lvl = braceBal s lvl := by
  obtain ⟨w, hw, hdec⟩ := pyStrip_decomp s
  have h1 : braceBal (s.dropWhile pyIsSpace) lvl = braceBal s lvl :=
    braceBal_dropWhile_ws s lvl
  rw [hdec, braceBal_append_ws (pyStrip s) w hw lvl] at h1
  exact h1

theorem pyStrip_sublist (s : List Char) : (pyStrip s).Sublist s := by
  unfold pyStrip
  have h1 : ((s.dropWhile pyIsSpace).reverse.dropWhile pyIsSpace).Sublist
      (s.dropWhile pyIsSpace).reverse := List.dropWhile_sublist _
  have h2 := h1.reverse
  rw [List.reverse_reverse] at h2
  exact h2.trans (List.dropWhile_sublist _)

theorem pyStrip_subset (s : List Char) : ∀ c ∈ pyStrip s, c ∈ s :=
  fun _ hc => (pyStrip_sublist s).subset hc

theorem stripBlockAux_noslash :
    ∀ (f : Nat) (s : List Char), '/' ∉ s → stripBlockAux f s = s := by
  intro f
  induction f with
  | zero => intro s _; rfl
  | succ f ih =>
    intro s h
    cases s with
    | nil => rfl
    | cons c rest =>
      have hc : c ≠ '/' := fun hh => h (hh ▸ List.mem_cons_self c rest)
      simp only [stripBlockAux]
      split
      · next r2 heq =>
        injection heq with hc' _
        exact absurd hc' hc
      · next =>
        rw [ih rest (fun hx => h (List.mem_cons_of_mem c hx))]

theorem stripLineAux_noslash :
    ∀ (f : Nat) (s : List Char), '/' ∉ s → stripLineAux f s = s := by
  intro f
  induction f with
  | zero => intro s _; rfl
  | succ f ih =>
    intro s h
    cases s with
    | nil => rfl
    | cons c rest =>
      have hc : c ≠ '/' := fun hh => h (hh ▸ List.mem_cons_self c rest)
      simp only [stripLineAux]
      split
      · next r2 heq =>
        injection heq with hc' _
        exact absurd hc' hc
      · next =>
        rw [ih rest (fun hx => h (List.mem_cons_of_mem c hx))]

/-- On a slash-free text the comment-stripping passes are the identity. -/
theorem strip_comments_noslash (s : List Char) (h : '/' ∉ s) :
    strip_line (strip_block s) = s := by
  unfold strip_block
  rw [stripBlockAux_noslash s.length s h]
  unfold strip_line
  rw [stripLineAux_noslash s.length s h]

set_option linter.unreachableTactic false in
set_option linter.unusedTactic false in
theorem weightMatch_sublist (c : List Char) (w : ℚ) (rest : List Char)
    (h : weightMatch c = some (w, rest)) : rest.Sublist c := by
  have hs1 : (c.dropWhile pyIsSpace).Sublist c := List.dropWhile_sublist _
  have hs2 : ((c.dropWhile pyIsSpace).dropWhile Char.isDigit).Sublist c :=
    (List.dropWhile_sublist _).trans hs1
  have hs3 : (((c.dropWhile pyIsSpace).dropWhile Char.isDigit).tail.dropWhile
      Char.isDigit).Sublist c :=
    (List.dropWhile_sublist _).trans ((List.tail_sublist _).trans hs2)
  unfold weightMatch at h
  simp only at h
  split_ifs at h with h1 h2 h3 h4 h5
  all_goals first
    | (injection h with h'
       injection h' with ha hb
       rw [← hb]
       first
        | exact (List.dropLast_sublist _).trans
            ((List.tail_sublist _).trans ((List.tail_sublist _).trans hs3))
        | exact (List.tail_sublist _).trans ((List.tail_sublist _).trans hs3)
        | exact (List.dropLast_sublist _).trans
            ((List.tail_sublist _).trans ((List.tail_sublist _).trans hs2))
        | exact (List.tail_sublist _).trans ((List.tail_sublist _).trans hs2))
    | injection h

theorem parseWeightedAlt_sublist (c : List Char) : (parseWeightedAlt c).2.Sublist c := by
  unfold parseWeightedAlt
  cases h : weightMatch c with
  | none => exact pyStrip_sublist c
  | some p =>
    obtain ⟨w, rest⟩ := p
    exact (pyStrip_sublist rest).trans (weightMatch_sublist c w rest h)

/-- Every character of a successfully selected text comes from one of the
block's (already processed) alternatives. -/
theorem gwc_ok_chars (cs : List (List Char)) (u : ℚ) (sel : List Char)
    (h : get_weighted_choice cs u = .ok sel) :
    ∀ ch ∈ sel, ∃ o ∈ cs, ch ∈ o := by
  unfold get_weighted_choice at h
  simp only at h
  cases hlast : (cumsum ((cs.map parseWeightedAlt).map Prod.fst)).getLast? with
  | none => rw [hlast] at h; simp at h
  | some total =>
    rw [hlast] at h
    dsimp only at h
    by_cases htot : total ≤ 0
    · rw [if_pos htot] at h
      simp at h
    · rw [if_neg htot] at h
      injection h with h'
      intro ch hch
      rw [← h'] at hch
      set idx := bisect (cumsum ((cs.map parseWeightedAlt).map Prod.fst))
        (u * total) 0 (((cs.map parseWeightedAlt).map Prod.snd).length - 1) with hidx
      by_cases hlt : idx < ((cs.map parseWeightedAlt).map Prod.snd).length
      · rw [List.getD_eq_getElem?_getD, List.getElem?_eq_getElem hlt] at hch
        simp only [Option.getD_some, List.getElem_map] at hch
        have hcs : idx < cs.length := by simpa using hlt
        exact ⟨cs[idx], List.getElem_mem hcs,
          (parseWeightedAlt_sublist cs[idx]).subset hch⟩
      · rw [List.getD_eq_getElem?_getD, List.getElem?_eq_none (by omega)] at hch
        simp at hch

theorem braceBal_no_open :
    ∀ (s : List Char), braceBal s 0 = true → '{' ∉ s → '}' ∉ s := by
  intro s
  induction s with
  | nil => intro _ _; simp
  | cons c rest ih =>
    intro hb hno
    have hc1 : c ≠ '{' := fun h => hno (h ▸ List.mem_cons_self _ _)
    by_cases hc2 : c = '}'
    · subst hc2
      simp [braceBal] at hb
    · have hb' : braceBal rest 0 = true := by simpa [braceBal, hc1, hc2] using hb
      have hno' : '{' ∉ rest := fun h => hno (List.mem_cons_of_mem _ h)
      intro hmem
      rcases List.mem_cons.mp hmem with h | h
      · exact hc2 h.symm
      · exact ih hb' hno' h

/-- On balanced input the matching-brace scan succeeds; the interior and the
remainder are again balanced (at the appropriate depths) and are made of
characters of the input. -/
theorem findBlock_balanced :
    ∀ (rest : List Char) (lvl : Nat), 1 ≤ lvl → braceBal rest lvl = true →
      ∃ inner after, findBlock rest lvl = some (inner, after) ∧
        braceBal inner (lvl - 1) = true ∧ braceBal after 0 = true ∧
        (∀ ch ∈ inner, ch ∈ rest) ∧ (∀ ch ∈ after, ch ∈ rest) := by
  intro rest
  induction rest with
  | nil =>
    intro lvl h1 hb
    simp [braceBal] at hb
    omega
  | cons c t ih =>
    intro lvl h1 hb
    by_cases hc1 : c = '{'
    · subst hc1
      have hb' : braceBal t (lvl + 1) = true := by simpa [braceBal] using hb
      obtain ⟨i, a, hf, hbi, hba, hmi, hma⟩ := ih (lvl + 1) (by omega) hb'
      refine ⟨'{' :: i, a, ?_, ?_, hba, ?_, ?_⟩
      · simp [findBlock, hf]
      · have he : braceBal ('{' :: i) (lvl - 1) = braceBal i ((lvl - 1) + 1) := by
          simp [braceBal]
        rw [he, show lvl - 1 + 1 = lvl from by omega]
        simpa using hbi
      · intro ch hch
        rcases List.mem_cons.mp hch with h | h
        · subst h; exact List.mem_cons_self _ _
        · exact List.mem_cons_of_mem _ (hmi ch h)
      · intro ch hch
        exact List.mem_cons_of_mem _ (hma ch hch)
    · by_cases hc2 : c = '}'
      · subst hc2
        have hb2 : 0 < lvl ∧ braceBal t (lvl - 1) = true := by
          simpa [braceBal, Bool.and_eq_true, decide_eq_true_eq] using hb
        by_cases hl1 : lvl = 1
        · subst hl1
          refine ⟨[], t, ?_, ?_, ?_, ?_, ?_⟩
          · simp [findBlock]
          · rfl
          · simpa using hb2.2
          · intro ch hch; simp at hch
          · intro ch hch; exact List.mem_cons_of_mem _ hch
        · obtain ⟨i, a, hf, hbi, hba, hmi, hma⟩ := ih (lvl - 1) (by omega) hb2.2
          refine ⟨'}' :: i, a, ?_, ?_, hba, ?_, ?_⟩
          · simp [findBlock, hl1, hf]
          · have he : braceBal ('}' :: i) (lvl - 1) =
                (decide (0 < lvl - 1) && braceBal i (lvl - 1 - 1)) := by
              simp [braceBal]
            rw [he]
            have h01 : 0 < lvl - 1 := by omega
            simp [h01, hbi]
          · intro ch hch
            rcases List.mem_cons.mp hch with h | h
            · subst h; exact List.mem_cons_self _ _
            · exact List.mem_cons_of_mem _ (hmi ch h)
          · intro ch hch
            exact List.mem_cons_of_mem _ (hma ch hch)
      · have hb' : braceBal t lvl = true := by simpa [braceBal, hc1, hc2] using hb
        obtain ⟨i, a, hf, hbi, hba, hmi, hma⟩ := ih lvl h1 hb'
        refine ⟨c :: i, a, ?_, ?_, hba, ?_, ?_⟩
        · simp [findBlock, hc1, hc2, hf]
        · simpa [braceBal, hc1, hc2] using hbi
        · intro ch hch
          rcases List.mem_cons.mp hch with h | h
          · subst h; exact List.mem_cons_self _ _
          · exact List.mem_cons_of_mem _ (hmi ch h)
        · intro ch hch
          exact List.mem_cons_of_mem _ (hma ch hch)

theorem mem_push_case {ch c : Char} {cur s' : List Char}
    (h : ch ∈ cur ++ [c] ∨ ch ∈ s') : ch ∈ cur ∨ ch ∈ c :: s' := by
  rcases h with h | h
  · rcases List.mem_append.mp h with h2 | h2
    · exact Or.inl h2
    · simp only [List.mem_singleton] at h2
      subst h2
      exact Or.inr (List.mem_cons_self _ _)
  · exact Or.inr (List.mem_cons_of_mem _ h)

/-- Invariant proof for the alternative-splitting loop: on a balanced
interior every emitted piece is balanced and made of interior characters.
`d` is the brace depth of the remaining text `s`; the functional hypothesis
records that the accumulated `cur` climbs from depth `0` to depth `d`. -/
theorem splitTopAux_pieces :
    ∀ (s : List Char) (d : Nat) (cur : List Char),
      braceBal s d = true →
      (∀ t, braceBal t d = true → braceBal (cur ++ t) 0 = true) →
      ∀ p ∈ splitTopAux s cur (d : Int),
        braceBal p 0 = true ∧ ∀ ch ∈ p, ch ∈ cur ∨ ch ∈ s := by
  intro s
  induction s with
  | nil =>
    intro d cur hb hinv p hp
    have hd : d = 0 := by simpa [braceBal] using hb
    subst hd
    have hcur : braceBal cur 0 = true := by simpa using hinv [] rfl
    by_cases hc : cur.isEmpty
    · simp [splitTopAux, hc] at hp
    · simp [splitTopAux, hc] at hp
      subst hp
      refine ⟨?_, ?_⟩
      · rw [pyStrip_braceBal]; exact hcur
      · intro ch hch
        exact Or.inl (pyStrip_subset cur ch hch)
  | cons c s' ih =>
    intro d cur hb hinv p hp
    by_cases h1 : c = '{'
    · subst h1
      have hb' : braceBal s' (d + 1) = true := by simpa [braceBal] using hb
      have hinv' : ∀ t, braceBal t (d + 1) = true →
          braceBal ((cur ++ ['{']) ++ t) 0 = true := by
        intro t ht
        rw [List.append_assoc, List.singleton_append]
        apply hinv
        simpa [braceBal] using ht
      have hcast : ((d : Int) + 1) = ((d + 1 : Nat) : Int) := by omega
      have hunf : splitTopAux ('{' :: s') cur (d : Int) =
          splitTopAux s' (cur ++ ['{']) ((d : Int) + 1) := by
        simp [splitTopAux]
      rw [hunf, hcast] at hp
      obtain ⟨hbp, hmp⟩ := ih (d + 1) (cur ++ ['{']) hb' hinv' p hp
      exact ⟨hbp, fun ch hch => mem_push_case (hmp ch hch)⟩
    · by_cases h2 : c = '}'
      · subst h2
        have hb2 : 0 < d ∧ braceBal s' (d - 1) = true := by
          simpa [braceBal, Bool.and_eq_true, decide_eq_true_eq] using hb
        have hinv' : ∀ t, braceBal t (d - 1) = true →
            braceBal ((cur ++ ['}']) ++ t) 0 = true := by
          intro t ht
          rw [List.append_assoc, List.singleton_append]
          apply hinv
          have he : braceBal ('}' :: t) d =
              (decide (0 < d) && braceBal t (d - 1)) := by
            simp [braceBal]
          rw [he, ht]
          simp [hb2.1]
        have hcast : ((d : Int) - 1) = ((d - 1 : Nat) : Int) := by omega
        have hunf : splitTopAux ('}' :: s') cur (d : Int) =
            splitTopAux s' (cur ++ ['}']) ((d : Int) - 1) := by
          simp [splitTopAux]
        rw [hunf, hcast] at hp
        obtain ⟨hbp, hmp⟩ := ih (d - 1) (cur ++ ['}']) hb2.2 hinv' p hp
        exact ⟨hbp, fun ch hch => mem_push_case (hmp ch hch)⟩
      · by_cases h3 : c = '|' ∧ d = 0
        · obtain ⟨h3c, h3d⟩ := h3
          subst h3c
          subst h3d
          have hb' : braceBal s' 0 = true := by simpa [braceBal] using hb
          have hcur : braceBal cur 0 = true := by simpa using hinv [] rfl
          have hunf : splitTopAux ('|' :: s') cur ((0 : Nat) : Int) =
              pyStrip cur :: splitTopAux s' [] ((0 : Nat) : Int) := by
            simp [splitTopAux]
          rw [hunf] at hp
          rcases List.mem_cons.mp hp with hp1 | hp1
          · subst hp1
            exact ⟨by rw [pyStrip_braceBal]; exact hcur,
              fun ch hch => Or.inl (pyStrip_subset cur ch hch)⟩
          · obtain ⟨hbp, hmp⟩ := ih 0 [] hb' (by intro t ht; simpa using ht) p hp1
            refine ⟨hbp, fun ch hch => ?_⟩
            rcases hmp ch hch with hm | hm
            · simp at hm
            · exact Or.inr (List.mem_cons_of_mem _ hm)
        · have h4 : ¬(c = '|' ∧ (d : Int) = 0) := by
            intro ⟨hc, hd⟩
            exact h3 ⟨hc, by omega⟩
          have hb' : braceBal s' d = true := by simpa [braceBal, h1, h2] using hb
          have hinv' : ∀ t, braceBal t d = true →
              braceBal ((cur ++ [c]) ++ t) 0 = true := by
            intro t ht
            rw [List.append_assoc, List.singleton_append]
            apply hinv
            simpa [braceBal, h1, h2] using ht
          have hunf : splitTopAux (c :: s') cur (d : Int) =
              splitTopAux s' (cur ++ [c]) (d : Int) := by
            simp only [splitTopAux]
            rw [if_neg h1, if_neg h2, if_neg h4]
          rw [hunf] at hp
          obtain ⟨hbp, hmp⟩ := ih d (cur ++ [c]) hb' hinv' p hp
          exact ⟨hbp, fun ch hch => mem_push_case (hmp ch hch)⟩

/-- Every top-level alternative of a balanced interior is balanced and made
of interior characters. -/
theorem splitTop_pieces (inner : List Char) (hb : braceBal inner 0 = true) :
    ∀ p ∈ splitTopLevel inner, braceBal p 0 = true ∧ ∀ ch ∈ p, ch ∈ inner := by
  have h := splitTopAux_pieces inner 0 [] hb (by intro t ht; simpa using ht)
  intro p hp
  obtain ⟨hb1, hm1⟩ := h p hp
  refine ⟨hb1, fun ch hch => ?_⟩
  rcases hm1 ch hch with hm | hm
  · simp at hm
  · exact hm

/-- Main invariant for C1: on a slash-free, brace-balanced input, every
successful run of the choice-processing functions emits no brace at all.
The three mutually recursive functions are handled together by induction on
the fuel. -/
theorem choices_no_brace (rng : Rng) :
    ∀ fuel : Nat,
      (∀ (kq : Nat) (s r : List Char) (kq' : Nat),
        braceBal s 0 = true → '/' ∉ s →
        process_choices rng fuel kq s = .ok (r, kq') → '{' ∉ r ∧ '}' ∉ r) ∧
      (∀ (kq : Nat) (s r : List Char) (kq' : Nat),
        braceBal s 0 = true → '/' ∉ s →
        scan_choices rng fuel kq s = .ok (r, kq') → '{' ∉ r ∧ '}' ∉ r) ∧
      (∀ (kq : Nat) (cs out : List (List Char)) (kq' : Nat),
        (∀ c ∈ cs, braceBal c 0 = true ∧ '/' ∉ c) →
        process_alts rng fuel kq cs = .ok (out, kq') →
        ∀ o ∈ out, '{' ∉ o ∧ '}' ∉ o) := by
  intro fuel
  induction fuel with
  | zero =>
    refine ⟨?_, ?_, ?_⟩
    · intro kq s r kq' _ _ h
      simp [process_choices] at h
    · intro kq s r kq' _ _ h
      simp [scan_choices] at h
    · intro kq cs out kq' _ h
      simp [process_alts] at h
  | succ f ih =>
    obtain ⟨ihp, ihs, iha⟩ := ih
    refine ⟨?_, ?_, ?_⟩
    · intro kq s r kq' hb hsl h
      have hstr : strip_line (strip_block s) = s := strip_comments_noslash s hsl
      have hu : process_choices rng (f + 1) kq s =
          scan_choices rng f kq (strip_line (strip_block s)) := rfl
      rw [hu, hstr] at h
      exact ihs kq s r kq' hb hsl h
    · intro kq s r kq' hb hsl h
      cases s with
      | nil =>
        have h0 : scan_choices rng (f + 1) kq ([] : List Char) = .ok ([], kq) := rfl
        rw [h0] at h
        injection h with h'
        injection h' with hr _
        rw [← hr]
        exact ⟨by simp, by simp⟩
      | cons c rest =>
        by_cases hc2 : c = '}'
        · subst hc2
          simp [braceBal] at hb
        · by_cases hc1 : c = '{'
          · subst hc1
            have hb1 : braceBal rest 1 = true := by simpa [braceBal] using hb
            obtain ⟨inner, after, hfb, hbi, hba, hmi, hma⟩ :=
              findBlock_balanced rest 1 le_rfl hb1
            have hbi0 : braceBal inner 0 = true := hbi
            have hslin : '/' ∉ inner := fun hx =>
              hsl (List.mem_cons_of_mem _ (hmi '/' hx))
            have hslaf : '/' ∉ after := fun hx =>
              hsl (List.mem_cons_of_mem _ (hma '/' hx))
            have hcsA : ∀ p ∈ splitTopLevel inner,
                braceBal p 0 = true ∧ '/' ∉ p := by
              intro p hp
              obtain ⟨hp1, hp2⟩ := splitTop_pieces inner hbi0 p hp
              exact ⟨hp1, fun hx => hslin (hp2 '/' hx)⟩
            simp only [scan_choices] at h
            rw [if_pos trivial, hfb] at h
            dsimp only at h
            cases hpa : process_alts rng f kq (splitTopLevel inner) with
            | error e =>
              rw [hpa] at h
              simp at h
            | ok p1 =>
              obtain ⟨processed, kq1⟩ := p1
              rw [hpa] at h
              dsimp only at h
              have hpieces : ∀ o ∈ processed, '{' ∉ o ∧ '}' ∉ o :=
                iha kq (splitTopLevel inner) processed kq1 hcsA hpa
              by_cases hemp : processed.isEmpty = true
              · rw [if_pos hemp] at h
                exact ihs kq1 after r kq' hba hslaf h
              · rw [if_neg hemp] at h
                cases hg : get_weighted_choice processed (rng.qs kq1) with
                | error e =>
                  rw [hg] at h
                  simp at h
                | ok sel =>
                  rw [hg] at h
                  cases hs2 : scan_choices rng f (kq1 + 1) after with
                  | error e =>
                    rw [hs2] at h
                    simp [Except.map] at h
                  | ok p2 =>
                    obtain ⟨r2, k2⟩ := p2
                    rw [hs2] at h
                    simp only [Except.map, Except.ok.injEq, Prod.mk.injEq] at h
                    obtain ⟨hr, hk⟩ := h
                    have hselc : ∀ ch ∈ sel, ∃ o ∈ processed, ch ∈ o :=
                      gwc_ok_chars processed _ sel hg
                    have hr2 := ihs (kq1 + 1) after r2 k2 hba hslaf hs2
                    constructor
                    · intro hmem
                      rw [← hr] at hmem
                      rcases List.mem_append.mp hmem with hm | hm
                      · obtain ⟨o, ho, hoo⟩ := hselc _ hm
                        exact (hpieces o ho).1 hoo
                      · exact hr2.1 hm
                    · intro hmem
                      rw [← hr] at hmem
                      rcases List.mem_append.mp hmem with hm | hm
                      · obtain ⟨o, ho, hoo⟩ := hselc _ hm
                        exact (hpieces o ho).2 hoo
                      · exact hr2.2 hm
          · have hb' : braceBal rest 0 = true := by
              simpa [braceBal, hc1, hc2] using hb
            simp only [scan_choices] at h
            rw [if_neg hc1] at h
            cases hs2 : scan_choices rng f kq rest with
            | error e =>
              rw [hs2] at h
              simp [Except.map] at h
            | ok p2 =>
              obtain ⟨r2, k2⟩ := p2
              rw [hs2] at h
              simp only [Except.map, Except.ok.injEq, Prod.mk.injEq] at h
              obtain ⟨hr, hk⟩ := h
              have hrec := ihs kq rest r2 k2 hb'
                (fun hx => hsl (List.mem_cons_of_mem c hx)) hs2
              constructor
              · intro hmem
                rw [← hr] at hmem
                rcases List.mem_cons.mp hmem with hm | hm
                · exact hc1 hm.symm
                · exact hrec.1 hm
              · intro hmem
                rw [← hr] at hmem
                rcases List.mem_cons.mp hmem with hm | hm
                · exact hc2 hm.symm
                · exact hrec.2 hm
    · intro kq cs out kq' hcs h
      cases cs with
      | nil =>
        have h0 : process_alts rng (f + 1) kq ([] : List (List Char)) =
            .ok ([], kq) := rfl
        rw [h0] at h
        injection h with h'
        injection h' with ho _
        intro o hmem
        rw [← ho] at hmem
        simp at hmem
      | cons c cs' =>
        have hhead := hcs c (List.mem_cons_self _ _)
        have htail : ∀ x ∈ cs', braceBal x 0 = true ∧ '/' ∉ x :=
          fun x hx => hcs x (List.mem_cons_of_mem _ hx)
        simp only [process_alts] at h
        by_cases hmem : '{' ∈ c
        · rw [if_pos hmem] at h
          cases hpc : process_choices rng f kq c with
          | error e =>
            rw [hpc] at h
            simp at h
          | ok p1 =>
            obtain ⟨c', kq1⟩ := p1
            rw [hpc] at h
            dsimp only at h
            cases hpa : process_alts rng f kq1 cs' with
            | error e =>
              rw [hpa] at h
              simp [Except.map] at h
            | ok p2 =>
              obtain ⟨out', k2⟩ := p2
              rw [hpa] at h
              simp only [Except.map, Except.ok.injEq, Prod.mk.injEq] at h
              obtain ⟨hout, hk⟩ := h
              have hc' := ihp kq c c' kq1 hhead.1 hhead.2 hpc
              have hrest := iha kq1 cs' out' k2 htail hpa
              intro o ho
              rw [← hout] at ho
              rcases List.mem_cons.mp ho with hm | hm
              · rw [hm]; exact hc'
              · exact hrest o hm
        · rw [if_neg hmem] at h
          cases hpa : process_alts rng f kq cs' with
          | error e =>
            rw [hpa] at h
            simp [Except.map] at h
          | ok p2 =>
            obtain ⟨out', k2⟩ := p2
            rw [hpa] at h
            simp only [Except.map, Except.ok.injEq, Prod.mk.injEq] at h
            obtain ⟨hout, hk⟩ := h
            have hrest := iha kq cs' out' k2 htail hpa
            intro o ho
            rw [← hout] at ho
            rcases List.mem_cons.mp ho with hm | hm
            · rw [hm]
              exact ⟨hmem, braceBal_no_open c hhead.1 hmem⟩
            · exact hrest o hm

/-- C1.  For every template string whose braces are balanced (so every block
is balanced; comments must already be out of the way — here slash-freeness,
since comment stripping runs before parsing and can itself change the brace
structure), every successful run of the choice parser leaves *no* choice
block delimiter in the output: nested blocks are fully resolved before the
outer selection, so neither `{` nor `}` survives.  In particular, on the
nested template `{a|{b|c}}` the parser first fully resolves the inner block
`{b|c}` (depth first), then selects between `a` and the resolved inner text:
for every random stream the output is exactly one of `a`, `b`, `c` — never a
literal brace, never an unresolved inner block — and both blocks consume one
weighted draw each, so the stream cursor always advances by two. -/
theorem C1_nested_choice_resolution :
    (∀ (rng : Rng) (fuel kq : Nat) (s r : List Char) (kq' : Nat),
      braceBal s 0 = true → '/' ∉ s →
      process_choices rng fuel kq s = .ok (r, kq') → '{' ∉ r ∧ '}' ∉ r) ∧
    (∀ (rng : Rng) (fuel kq : Nat),
      process_choices rng (fuel + 20) kq tplNested = .ok (['a'], kq + 2) ∨
      process_choices rng (fuel + 20) kq tplNested = .ok (['b'], kq + 2) ∨
      process_choices rng (fuel + 20) kq tplNested = .ok (['c'], kq + 2)) := by
  constructor
  · intro rng fuel kq s r kq' hb hsl h
    exact (choices_no_brace rng fuel).1 kq s r kq' hb hsl h
  · intro rng fuel kq
    have hpa : parseWeightedAlt ['a'] = (1, ['a']) := rfl
    have hpb : parseWeightedAlt ['b'] = (1, ['b']) := rfl
    have hpc : parseWeightedAlt ['c'] = (1, ['c']) := rfl
    rcases gwc_two ['b'] ['c'] (rng.qs kq) hpb hpc with hbc | hbc
    · rcases gwc_two ['a'] ['b'] (rng.qs (kq + 1)) hpa hpb with ho | ho
      · left
        simp +decide [process_choices, scan_choices, process_alts, tplNested, strip_line,
          strip_block, stripLineAux, stripBlockAux, cutClose, findBlock, splitTopLevel,
          splitTopAux, pyStrip, hbc, ho, Except.map]
      · right; left
        simp +decide [process_choices, scan_choices, process_alts, tplNested, strip_line,
          strip_block, stripLineAux, stripBlockAux, cutClose, findBlock, splitTopLevel,
          splitTopAux, pyStrip, hbc, ho, Except.map]
    · rcases gwc_two ['a'] ['c'] (rng.qs (kq + 1)) hpa hpc with ho | ho
      · left
        simp +decide [process_choices, scan_choices, process_alts, tplNested, strip_line,
          strip_block, stripLineAux, stripBlockAux, cutClose, findBlock, splitTopLevel,
          splitTopAux, pyStrip, hbc, ho, Except.map]
      · right; right
        simp +decide [process_choices, scan_choices, process_alts, tplNested, strip_line,
          strip_block, stripLineAux, stripBlockAux, cutClose, findBlock, splitTopLevel,
          splitTopAux, pyStrip, hbc, ho, Except.map]

/-- Witness for C1: the nested template is balanced and slash-free; under the
all-zero stream the run succeeds with output `a`, and the general statement
applied to that run certifies the output contains no brace. -/
theorem C1_nested_choice_resolution_witness :
    braceBal tplNested 0 = true ∧ '/' ∉ tplNested ∧
    process_choices rngZero 20 0 tplNested = .ok (['a'], 2) ∧
    ('{' ∉ (['a'] : List Char) ∧ '}' ∉ (['a'] : List Char)) := by
  have hpa : parseWeightedAlt ['a'] = (1, ['a']) := rfl
  have hpb : parseWeightedAlt ['b'] = (1, ['b']) := rfl
  have hpc : parseWeightedAlt ['c'] = (1, ['c']) := rfl
  have hbc : get_weighted_choice [['b'], ['c']] (rngZero.qs 0) = .ok ['b'] := by
    norm_num [rngZero, get_weighted_choice, hpb, hpc, cumsum, List.range_succ,
      bisect, bisectAux, List.getD]
  have ho : get_weighted_choice [['a'], ['b']] (rngZero.qs 1) = .ok ['a'] := by
    norm_num [rngZero, get_weighted_choice, hpa, hpb, cumsum, List.range_succ,
      bisect, bisectAux, List.getD]
  have hrun : process_choices rngZero 20 0 tplNested = .ok (['a'], 2) := by
    simp +decide [process_choices, scan_choices, process_alts, tplNested, strip_line,
      strip_block, stripLineAux, stripBlockAux, cutClose, findBlock, splitTopLevel,
      splitTopAux, pyStrip, hbc, ho, Except.map]
  refine ⟨by decide, by decide, hrun, ?_⟩
  exact C1_nested_choice_resolution.1 rngZero 20 0 tplNested ['a'] 2
    (by decide) (by decide) hrun

end RandomPromptsMyTest
